import Mathlib

/-!
Verification of the go-map-search engine core.

Shallow embedding of the Go source (`runtime_search.go`, `engine.go`,
`runes.go`, `context.go`) in Lean 4:

* Go `string` / `[]byte` values are modelled as `List Nat` of byte values
  (< 256); Go byte indexing becomes `List.getD`.
* Go `map[string]string` corpora are modelled as association lists
  `List (List Nat × List Nat)`; Go map iteration order is arbitrary, the
  association-list order is one concrete resolution of that nondeterminism.
* `float32` relevance scores are modelled as rationals `ℚ`; all score
  constants of the source (2.0, 1.0, 0.5, 0.3, 0.8) are exactly
  representable and only order/equality facts about scores are proved.
* The fixed-capacity scratch buffers of `Context` become capacity
  parameters (2048 query bytes, 8192 doc bytes, 128/256 word spans,
  1024 candidates, 4096 index buffer) threaded through the functions.
* Stateful loops become explicit state-passing recursion.
-/

namespace GoMapSearch

/-- Go lexicographic byte-wise string comparison `id1 < id2`. -/
def strLt : List Nat → List Nat → Bool
  | _, [] => false
  | [], _ :: _ => true
  | a :: as, b :: bs => if a < b then true else if b < a then false else strLt as bs

/-- Membership in `wordBoundaryLUT` (engine.go): the 256-entry table marking
word-delimiting bytes (whitespace, punctuation, brackets, quotes). -/
def wordBoundary (b : Nat) : Bool :=
  b == 32 || b == 9 || b == 10 || b == 13 ||
  b == 46 || b == 44 || b == 59 || b == 58 ||
  b == 33 || b == 63 || b == 45 || b == 95 ||
  b == 47 || b == 92 || b == 40 || b == 41 ||
  b == 91 || b == 93 || b == 123 || b == 125 ||
  b == 34 || b == 39

/-- Embedding of `decodeRune` (runes.go): classify the leading byte, return
the decoded code point and the consumed byte count.  Go's `&`/`<<`/`|` are
mirrored with `Nat` bit operations. -/
def decodeRune : List Nat → Nat × Nat
  | [] => (0, 0)
  | b0 :: rest =>
    if b0 < 0x80 then (b0, 1)
    else if rest.length < 1 then (0xFFFD, 1)
    else if b0 < 0xE0 then
      (((b0 &&& 0x1F) <<< 6) ||| (rest.getD 0 0 &&& 0x3F), 2)
    else if rest.length < 2 then (0xFFFD, 1)
    else if b0 < 0xF0 then
      (((b0 &&& 0x0F) <<< 12) ||| ((rest.getD 0 0 &&& 0x3F) <<< 6) |||
        (rest.getD 1 0 &&& 0x3F), 3)
    else if rest.length < 3 then (0xFFFD, 1)
    else
      (((b0 &&& 0x07) <<< 18) ||| ((rest.getD 0 0 &&& 0x3F) <<< 12) |||
        ((rest.getD 1 0 &&& 0x3F) <<< 6) ||| (rest.getD 2 0 &&& 0x3F), 4)

/-- Embedding of `encodeRune` (runes.go): UTF-8 encode a code point,
folding ASCII `A`–`Z` to lowercase; returns the written bytes. -/
def encodeRune (r : Nat) : List Nat :=
  if r < 0x80 then
    [if 65 ≤ r ∧ r ≤ 90 then r + 32 else r]
  else if r < 0x800 then
    [0xC0 ||| (r >>> 6), 0x80 ||| (r &&& 0x3F)]
  else if r < 0x10000 then
    [0xE0 ||| (r >>> 12), 0x80 ||| ((r >>> 6) &&& 0x3F), 0x80 ||| (r &&& 0x3F)]
  else
    [0xF0 ||| (r >>> 18), 0x80 ||| ((r >>> 12) &&& 0x3F),
      0x80 ||| ((r >>> 6) &&& 0x3F), 0x80 ||| (r &&& 0x3F)]

/-- On non-empty input `decodeRune` consumes at least one byte. -/
theorem decodeRune_snd_pos (b0 : Nat) (rest : List Nat) :
    1 ≤ (decodeRune (b0 :: rest)).2 := by
  simp only [decodeRune]
  repeat' split
  all_goals norm_num

/-- Embedding of the loop body of `normalizeText` (runtime_search.go):
`len` is the running output length `*length`, `maxLen` is
`len(buffer) - 4`.  ASCII bytes are case-folded inline; bytes ≥ 0x80 are
decoded and re-encoded when at least four bytes of space remain (otherwise
the code point is skipped and scanning continues).  Every iteration of the
Go loop consumes at least one input byte, so the loop is driven by a
structural `fuel` counter initialized to the input length; the
`fuel = 0` case is never reached from `normalizeText`
(`normalizeAux_fuel` below). -/
def normalizeAux : Nat → List Nat → Nat → Nat → List Nat
  | _, [], _, _ => []
  | 0, _ :: _, _, _ => []
  | fuel + 1, r :: rest, len, maxLen =>
    if len < maxLen then
      if r < 128 then
        (if 65 ≤ r ∧ r ≤ 90 then r + 32 else r) :: normalizeAux fuel rest (len + 1) maxLen
      else
        let d := decodeRune (r :: rest)
        if len + 4 ≤ maxLen then
          let enc := encodeRune d.1
          enc ++ normalizeAux fuel (List.drop d.2 (r :: rest)) (len + enc.length) maxLen
        else
          normalizeAux fuel (List.drop d.2 (r :: rest)) len maxLen
    else []

/-- Embedding of `normalizeText` (runtime_search.go) for a buffer of
capacity `cap`; returns the written prefix of the buffer. -/
def normalizeText (text : List Nat) (cap : Nat) : List Nat :=
  normalizeAux text.length text 0 (cap - 4)

/-- The fuel counter of `normalizeAux` is immaterial as long as it is at
least the input length, which `normalizeText` guarantees: the function is
the Go loop. -/
theorem normalizeAux_fuel (fuel1 : Nat) : ∀ (fuel2 : Nat) (text : List Nat) (len maxLen : Nat),
    text.length ≤ fuel1 → text.length ≤ fuel2 →
    normalizeAux fuel1 text len maxLen = normalizeAux fuel2 text len maxLen := by
  induction fuel1 with
  | zero =>
    intro fuel2 text len maxLen h1 _
    cases text with
    | nil => cases fuel2 <;> rfl
    | cons r rest => simp at h1
  | succ f1 ih =>
    intro fuel2 text len maxLen h1 h2
    cases text with
    | nil => cases fuel2 <;> rfl
    | cons r rest =>
      cases fuel2 with
      | zero => simp at h2
      | succ f2 =>
        simp only [normalizeAux]
        have hd := decodeRune_snd_pos r rest
        split
        · split
          · rw [ih f2 rest (len + 1) maxLen (by simp at h1 ⊢; omega) (by simp at h2 ⊢; omega)]
          · split <;>
            · rw [ih f2 (List.drop (decodeRune (r :: rest)).2 (r :: rest)) _ maxLen
                (by simp only [List.length_drop, List.length_cons] at h1 ⊢; omega)
                (by simp only [List.length_drop, List.length_cons] at h2 ⊢; omega)]
        · rfl

/-- Embedding of the loop of `splitWords` (runtime_search.go). `i` is the
byte index, `start` the current span start, `count` the number of emitted
spans, `textLen` the total length.  The trailing non-empty span is emitted
when the byte list is exhausted. -/
def splitWordsAux : List Nat → Nat → Nat → Nat → Nat → Nat → List (Nat × Nat)
  | [], _, start, count, maxWords, textLen =>
    if start < textLen ∧ count < maxWords then [(start, textLen)] else []
  | b :: rest, i, start, count, maxWords, textLen =>
    if count < maxWords then
      if wordBoundary b then
        if i > start then
          (start, i) :: splitWordsAux rest (i + 1) (i + 1) (count + 1) maxWords textLen
        else
          splitWordsAux rest (i + 1) (i + 1) count maxWords textLen
      else
        splitWordsAux rest (i + 1) start count maxWords textLen
    else []

/-- Embedding of `splitWords` (runtime_search.go): word spans
`(start, end)` of the normalized text, truncated at `maxWords`
(= `min (len starts) (len ends)` in the source). -/
def splitWords (text : List Nat) (maxWords : Nat) : List (Nat × Nat) :=
  splitWordsAux text 0 0 0 maxWords text.length

/-- Embedding of `memEqual` (unsafe byte comparison helper): equality of the
first `n` bytes of the two slices. -/
def memEqual (a b : List Nat) (n : Nat) : Bool :=
  a.take n == b.take n

/-- Embedding of `containsAnyQueryBytes` (engine.go): the 256-entry lookup
table of query bytes reduces to membership of a document byte in the query. -/
def containsAnyQueryBytes (doc query : List Nat) : Bool :=
  if query.isEmpty then false
  else doc.any (fun b => query.contains b)

/-- Embedding of `containsTrigram` (runtime_search.go): word-packed
comparison of every 3-byte window of `text` with `trigram`. -/
def containsTrigram (text trigram : List Nat) : Bool :=
  if text.length < 3 ∨ trigram.length ≠ 3 then false
  else
    let pack := fun (l : List Nat) (i : Nat) =>
      (l.getD i 0 <<< 16) ||| (l.getD (i + 1) 0 <<< 8) ||| l.getD (i + 2) 0
    (List.range (text.length - 2)).any (fun i => pack text i == pack trigram 0)

/-- Embedding of `containsSubsequence` (runtime_search.go): quick first/last
byte screening followed by the full substring scan. -/
def containsSubsequence (haystack needle : List Nat) : Bool :=
  if needle.isEmpty then true
  else if haystack.length < needle.length then false
  else
    let quickOk :=
      if needle.length > 1 then
        let firstByte := needle.getD 0 0
        let lastByte := needle.getD (needle.length - 1) 0
        match (List.range (haystack.length - needle.length + 1)).find?
            (fun i => haystack.getD i 0 == firstByte) with
        | none => false
        | some firstPos =>
          (List.range haystack.length).any
            (fun i => decide (firstPos + needle.length - 1 ≤ i) &&
              (haystack.getD i 0 == lastByte))
      else true
    if quickOk then
      (List.range (haystack.length - needle.length + 1)).any
        (fun i => memEqual (haystack.drop i) needle needle.length)
    else false

/-- Embedding of `SearchResult` (engine.go); also used for the parallel
candidate arrays `candidateIDs`/`candidateTexts`/`candidateScores` of
`Context` (context.go), which are always moved together. -/
structure SearchResult where
  ID : List Nat
  Text : List Nat
  Score : ℚ
  deriving DecidableEq, Repr

/-- Default element used for out-of-range array reads (never reached on the
index ranges the source touches). -/
def dummySR : SearchResult := ⟨[], [], 0⟩

/-- Query-side fields of `Context` (context.go) after `normalizeText` and
`splitWords` ran on the query: `queryNormalized[:queryNormLen]` and the word
spans `queryWordStarts/Ends[:queryWordCount]`. -/
structure QueryCtx where
  qNorm : List Nat
  qWords : List (Nat × Nat)
  deriving DecidableEq, Repr

/-- Query preparation of `performSearchOneAlloc`/`performSearchZeroAlloc`
(runtime_search.go): normalize into the 2048-byte query buffer, split into
at most 128 word spans. -/
def mkQueryCtx (query : List Nat) : QueryCtx :=
  let n := normalizeText query 2048
  ⟨n, splitWords n 128⟩

/-- Embedding of the inner document-word loop of `scoreDocument`
(runtime_search.go) for one query word `(qs, qe)`: returns the best match
score for this query word and whether an exact match was found (the loop
breaks on an exact match). -/
def bestWordMatch (qNorm docNorm : List Nat) (qs qe : Nat) :
    List (Nat × Nat) → ℚ → ℚ × Bool
  | [], best => (best, false)
  | (ds, de) :: rest, best =>
    let queryLen := qe - qs
    let docLen := de - ds
    if docNorm.getD ds 0 ≠ qNorm.getD qs 0 ∧ docLen ≠ queryLen then
      bestWordMatch qNorm docNorm qs qe rest best
    else if queryLen = docLen then
      if memEqual ((qNorm.drop qs).take queryLen) ((docNorm.drop ds).take docLen) queryLen then
        (2, true)
      else
        bestWordMatch qNorm docNorm qs qe rest best
    else
      let prefScore : ℚ :=
        if docLen > queryLen then
          if memEqual ((qNorm.drop qs).take queryLen)
              ((docNorm.drop ds).take queryLen) queryLen then 1 else 0
        else
          if memEqual ((qNorm.drop qs).take docLen)
              ((docNorm.drop ds).take docLen) docLen then 1 else 0
      bestWordMatch qNorm docNorm qs qe rest (if prefScore > best then prefScore else best)

/-- Embedding of the outer query-word loop of `scoreDocument`: accumulated
`totalScore` and `exactMatches`. -/
def wordMatchLoop (qNorm docNorm : List Nat) (docWords : List (Nat × Nat)) :
    List (Nat × Nat) → ℚ × Nat
  | [] => (0, 0)
  | (qs, qe) :: rest =>
    let r := bestWordMatch qNorm docNorm qs qe docWords 0
    let t := wordMatchLoop qNorm docNorm docWords rest
    (r.1 + t.1, (if r.2 then 1 else 0) + t.2)

/-- Embedding of `scoreSubstring` (runtime_search.go): strided trigram
overlap of the query against the normalized document bytes, scaled by 0.3. -/
def scoreSubstring (q : QueryCtx) (docNorm : List Nat) : ℚ :=
  let queryLen := q.qNorm.length
  if queryLen < 3 then 0
  else
    let stride := max 1 (queryLen / 10)
    let iters := (queryLen - 3) / stride + 1
    let mcount := ((List.range iters).filter
      (fun k => containsTrigram docNorm ((q.qNorm.drop (k * stride)).take 3))).length
    if mcount = 0 then 0
    else
      let maxPossibleMatches := (queryLen - 2) / stride + 1
      (mcount : ℚ) / (maxPossibleMatches : ℚ) * (3 / 10)

/-- Embedding of the inner loop of `scoreReversedWords`: does any document
word of comparable length contain this query word as a substring (or vice
versa)?  The source `break`s at the first hit. -/
def revWordHit (qNorm docNorm : List Nat) (qs qe : Nat) : List (Nat × Nat) → Bool
  | [] => false
  | (ds, de) :: rest =>
    let queryLen := qe - qs
    let docLen := de - ds
    if abs ((docLen : ℚ) - (queryLen : ℚ)) > (min (docLen : ℚ) (queryLen : ℚ)) / 2 then
      revWordHit qNorm docNorm qs qe rest
    else if containsSubsequence ((docNorm.drop ds).take docLen) ((qNorm.drop qs).take queryLen) ||
        containsSubsequence ((qNorm.drop qs).take queryLen) ((docNorm.drop ds).take docLen) then
      true
    else
      revWordHit qNorm docNorm qs qe rest

/-- Embedding of `scoreReversedWords` (runtime_search.go): count query words
of length ≥ 3 appearing as substrings of similarly sized document words;
two or more hits yield `matchCount / queryWordCount * 0.8`. -/
def scoreReversedWords (q : QueryCtx) (docNorm : List Nat) (docWords : List (Nat × Nat)) : ℚ :=
  if q.qWords.length < 2 then 0
  else
    let matchCount := (q.qWords.filter
      (fun s => decide (3 ≤ s.2 - s.1) && revWordHit q.qNorm docNorm s.1 s.2 docWords)).length
    if matchCount ≥ 2 then
      (matchCount : ℚ) / (q.qWords.length : ℚ) * (4 / 5)
    else 0

/-- Embedding of `scoreDocument` (runtime_search.go): normalize the document
into the 8192-byte doc buffer, screen for shared bytes, split into at most
256 word spans, run the per-word matching, then the bonus/fallback chain. -/
def scoreDocument (text : List Nat) (q : QueryCtx) : ℚ :=
  if text.length = 0 ∨ q.qWords.length = 0 then 0
  else
    let docNorm := normalizeText text 8192
    if ¬ containsAnyQueryBytes docNorm q.qNorm then 0
    else
      let docWords := splitWords docNorm 256
      let r := wordMatchLoop q.qNorm docNorm docWords q.qWords
      let totalScore := r.1
      let exactMatches := r.2
      if exactMatches = q.qWords.length then
        totalScore + ((exactMatches - 1 : Nat) : ℚ) * (1 / 2)
      else
        let t1 := if exactMatches > 1 then
          totalScore + ((exactMatches - 1 : Nat) : ℚ) * (1 / 2) else totalScore
        let t2 := if q.qNorm.length ≥ 3 ∧ exactMatches = 0 ∧ t1 = 0 then
          t1 + scoreSubstring q docNorm else t1
        if q.qWords.length ≥ 2 ∧ exactMatches < q.qWords.length ∧
            t2 < (q.qWords.length : ℚ) then
          t2 + scoreReversedWords q docNorm (splitWords docNorm 256)
        else t2

/-- Embedding of the loop of `searchDirect` (runtime_search.go): scan the
corpus in iteration order, skip short documents when the query has a long
word, keep positive-scoring documents, stop once the 1024-entry candidate
arrays are full (`cnt` is `ctx.candidateCount`). -/
def searchDirectAux (q : QueryCtx) (hasLongWords : Bool) :
    List (List Nat × List Nat) → Nat → List SearchResult
  | [], _ => []
  | (id, text) :: rest, cnt =>
    if cnt ≥ 1024 then []
    else if hasLongWords ∧ text.length < q.qNorm.length / 2 then
      searchDirectAux q hasLongWords rest cnt
    else
      let score := scoreDocument text q
      if score > 0 then
        ⟨id, text, score⟩ :: searchDirectAux q hasLongWords rest (cnt + 1)
      else
        searchDirectAux q hasLongWords rest cnt

/-- Embedding of `searchDirect` (runtime_search.go). -/
def searchDirect (data : List (List Nat × List Nat)) (q : QueryCtx) : List SearchResult :=
  let hasLongWords := q.qWords.any (fun s => decide (s.2 - s.1 > 10))
  searchDirectAux q hasLongWords data 0

/-- Association-list model of the Go `map[string][]string` indexes: the
`append`-or-create update `m[k] = append(m[k], v)` of `buildIndex`. -/
def mapAppend : List (List Nat × List (List Nat)) → List Nat → List Nat →
    List (List Nat × List (List Nat))
  | [], k, v => [(k, [v])]
  | (k', vs) :: rest, k, v =>
    if k' = k then (k', vs ++ [v]) :: rest else (k', vs) :: mapAppend rest k v

/-- Embedding of `RuntimeSearch`'s cached state (engine.go): corpus snapshot,
word index and trigram index. -/
structure IndexStore where
  cachedData : List (List Nat × List Nat)
  cachedWordMap : List (List Nat × List (List Nat))
  cachedTrigrams : List (List Nat × List (List Nat))

/-- Word-index part of the per-document loop of `buildIndex`
(runtime_search.go): append `docID` under every word span (spans are
re-checked against the buffer length as in the source). -/
def buildWordEntries (wm : List (List Nat × List (List Nat))) (docID norm : List Nat)
    (spans : List (Nat × Nat)) : List (List Nat × List (List Nat)) :=
  spans.foldl (fun acc s =>
    if s.1 < s.2 ∧ s.2 ≤ norm.length then
      mapAppend acc ((norm.drop s.1).take (s.2 - s.1)) docID
    else acc) wm

/-- Trigram-index part of the per-document loop of `buildIndex`: stride
`max 1 (len/100)` over the normalized bytes. -/
def buildTrigramEntries (tg : List (List Nat × List (List Nat))) (docID norm : List Nat) :
    List (List Nat × List (List Nat)) :=
  if norm.length ≥ 3 then
    let stride := max 1 (norm.length / 100)
    let iters := (norm.length - 3) / stride + 1
    (List.range iters).foldl
      (fun acc k => mapAppend acc ((norm.drop (k * stride)).take 3) docID) tg
  else tg

/-- Per-document body of the index loop of `buildIndex` (runtime_search.go):
normalize into the 4096-byte `indexBuffer`, split into at most 256 spans,
extend both indexes. -/
def buildIndexStep
    (acc : List (List Nat × List (List Nat)) × List (List Nat × List (List Nat)))
    (d : List Nat × List Nat) :
    List (List Nat × List (List Nat)) × List (List Nat × List (List Nat)) :=
  let norm := normalizeText d.2 4096
  let spans := splitWords norm 256
  (buildWordEntries acc.1 d.1 norm spans, buildTrigramEntries acc.2 d.1 norm)

/-- Embedding of `buildIndex` (runtime_search.go): rebuild the three cached
structures from the corpus.  The per-entry copy into the cleared
`cachedData` map reproduces the corpus, so `cachedData` is `data` itself. -/
def buildIndex (data : List (List Nat × List Nat)) : IndexStore :=
  let maps := data.foldl buildIndexStep ([], [])
  ⟨data, maps.1, maps.2⟩

/-- Embedding of the inlined binary search of `addToCandidateSet`
(runtime_search.go): lower-bound position of `docID` in the sorted
candidate set.  `right - left` shrinks every iteration, so the loop is
driven by a structural `fuel` counter initialized to `right - left`
(`bsLoop_fuel` below shows any larger fuel gives the same result). -/
def bsLoop (set : List (List Nat)) (docID : List Nat) : Nat → Nat → Nat → Nat
  | 0, left, _ => left
  | fuel + 1, left, right =>
    if left < right then
      let mid := (left + right) / 2
      if strLt (set.getD mid []) docID then bsLoop set docID fuel (mid + 1) right
      else bsLoop set docID fuel left mid
    else left

/-- The fuel counter of `bsLoop` is immaterial once it reaches
`right - left`. -/
theorem bsLoop_fuel (set : List (List Nat)) (docID : List Nat) :
    ∀ fuel1 fuel2 left right, right - left ≤ fuel1 → right - left ≤ fuel2 →
      bsLoop set docID fuel1 left right = bsLoop set docID fuel2 left right := by
  intro fuel1
  induction fuel1 with
  | zero =>
    intro fuel2 left right h1 _
    cases fuel2 with
    | zero => rfl
    | succ f2 =>
      have : ¬ left < right := by omega
      simp [bsLoop, this]
  | succ f1 ih =>
    intro fuel2 left right h1 h2
    cases fuel2 with
    | zero =>
      have : ¬ left < right := by omega
      simp [bsLoop, this]
    | succ f2 =>
      simp only [bsLoop]
      split
      · split
        · exact ih f2 _ _ (by omega) (by omega)
        · exact ih f2 _ _ (by omega) (by omega)
      · rfl

/-- Body of the per-`docID` iteration of `addToCandidateSet` after the
capacity break: binary search, duplicate check, insert if below the
1024-entry capacity of `ctx.candidateSet`. -/
def insertCandID (set : List (List Nat)) (docID : List Nat) : List (List Nat) :=
  let left := bsLoop set docID set.length 0 set.length
  if left < set.length ∧ set.getD left [] = docID then set
  else if set.length < 1024 then set.take left ++ docID :: set.drop left
  else set

/-- Embedding of `addToCandidateSet` (runtime_search.go): insert each id,
breaking out once the set is at capacity. -/
def addToCandidateSet : List (List Nat) → List (List Nat) → List (List Nat)
  | [], set => set
  | docID :: rest, set =>
    if set.length ≥ 1024 then set
    else addToCandidateSet rest (insertCandID set docID)

/-- Rarest-word selection loop of `findCandidates` (runtime_search.go):
fold over the query words keeping the indexed word with the smallest
posting list (`minCount` starts at Go's max int). -/
def findRarest (wm : List (List Nat × List (List Nat))) (qNorm : List Nat)
    (spans : List (Nat × Nat)) : Nat × List Nat :=
  spans.foldl (fun acc s =>
    let w := (qNorm.drop s.1).take (s.2 - s.1)
    match List.lookup w wm with
    | some ids => if ids.length < acc.1 then (ids.length, w) else acc
    | none => acc) (9223372036854775807, [])

/-- Per-query-word body of the second loop of `findCandidates`: exact
posting lookup plus the two-sided ≤10-byte prefix scan over the whole word
index. -/
def addWordCandidates (idx : IndexStore) (qNorm : List Nat) (s : Nat × Nat)
    (set : List (List Nat)) : List (List Nat) :=
  let setA := match List.lookup ((qNorm.drop s.1).take (s.2 - s.1)) idx.cachedWordMap with
    | some ids => addToCandidateSet ids set
    | none => set
  let prefLen := s.2 - s.1
  idx.cachedWordMap.foldl (fun st entry =>
    let wordLen := entry.1.length
    if wordLen > prefLen ∧ wordLen - prefLen ≤ 10 then
      if memEqual entry.1 ((qNorm.drop s.1).take prefLen) prefLen then
        addToCandidateSet entry.2 st
      else st
    else if prefLen > wordLen ∧ prefLen - wordLen ≤ 10 then
      if memEqual ((qNorm.drop s.1).take wordLen) entry.1 wordLen then
        addToCandidateSet entry.2 st
      else st
    else st) setA

/-- Trigram-fallback loop of `findCandidates`: every other query trigram,
stopping once more than 100 candidates accumulated. -/
def trigramLoop (tg : List (List Nat × List (List Nat))) (qNorm : List Nat) :
    List Nat → List (List Nat) → List (List Nat)
  | [], set => set
  | i :: restIdx, set =>
    match List.lookup ((qNorm.drop i).take 3) tg with
    | some ids =>
      let set1 := addToCandidateSet ids set
      if set1.length > 100 then set1 else trigramLoop tg qNorm restIdx set1
    | none => trigramLoop tg qNorm restIdx set

/-- Embedding of `findCandidates` (runtime_search.go): seed with the rarest
word's postings, add exact and prefix matches for the other query words,
then the trigram fallback when nothing was found and the query length is in
`[3, 100]`. -/
def findCandidates (idx : IndexStore) (q : QueryCtx) : List (List Nat) :=
  let rarest := (findRarest idx.cachedWordMap q.qNorm q.qWords).2
  let set1 : List (List Nat) :=
    if rarest ≠ [] then
      match List.lookup rarest idx.cachedWordMap with
      | some ids => addToCandidateSet ids []
      | none => []
    else []
  let set2 := q.qWords.foldl (fun set s =>
    if (q.qNorm.drop s.1).take (s.2 - s.1) = rarest then set
    else addWordCandidates idx q.qNorm s set) set1
  let qlen := q.qNorm.length
  if set2.length = 0 ∧ 3 ≤ qlen ∧ qlen ≤ 100 then
    trigramLoop idx.cachedTrigrams q.qNorm
      ((List.range ((qlen - 3) / 2 + 1)).map (· * 2)) set2
  else set2

/-- Embedding of `scoreCandidates` (runtime_search.go): re-score every
candidate id against the cached text, keeping positive scores, bounded by
the 1024-entry candidate arrays (`cnt` is `ctx.candidateCount`). -/
def scoreCandidatesAux (cached : List (List Nat × List Nat)) (q : QueryCtx) :
    List (List Nat) → Nat → List SearchResult
  | [], _ => []
  | docID :: rest, cnt =>
    if cnt < 1024 then
      match List.lookup docID cached with
      | some text =>
        let score := scoreDocument text q
        if score > 0 then ⟨docID, text, score⟩ :: scoreCandidatesAux cached q rest (cnt + 1)
        else scoreCandidatesAux cached q rest cnt
      | none => scoreCandidatesAux cached q rest cnt
    else []

/-- Embedding of `searchWithCache` (runtime_search.go) under the claims'
proviso that the corpus is unchanged between the calls: either the
staleness check triggers and `buildIndex data` runs, or the retained cache
already equals `buildIndex data`; both leave the state produced here. -/
def searchWithCache (data : List (List Nat × List Nat)) (q : QueryCtx) : List SearchResult :=
  let idx := buildIndex data
  scoreCandidatesAux idx.cachedData q (findCandidates idx q) 0

/-- The inline comparison of `insertionSort` and `shellSort`
(runtime_search.go): `scores[j] < score || (scores[j] == score && ids[j] > id)`,
deciding that element `e` must move after the element `x` being inserted. -/
def candLess (e x : SearchResult) : Bool :=
  decide (e.Score < x.Score) || (decide (e.Score = x.Score) && strLt x.ID e.ID)

/-- Embedding of `compareScoreAndID` (engine.go). -/
def compareScoreAndID (s1 : ℚ) (id1 : List Nat) (s2 : ℚ) (id2 : List Nat) : Int :=
  if s1 > s2 then 1
  else if s1 < s2 then -1
  else if strLt id1 id2 then 1
  else if strLt id2 id1 then -1
  else 0

/-- Embedding of `swapCandidates` (runtime_search.go): the three parallel
arrays are swapped together, i.e. the triples are swapped. -/
def swapCands (l : List SearchResult) (i j : Nat) : List SearchResult :=
  (l.set i (l.getD j dummySR)).set j (l.getD i dummySR)

/-- Inner shifting loop of `insertionSort` (runtime_search.go), phrased at
the insertion position `j` (source index plus one): shift the previous
element right while it compares after `save`, then place `save`. -/
def insInner (l : List SearchResult) (left : Nat) (save : SearchResult) (j : Nat) :
    List SearchResult :=
  if h : left < j ∧ candLess (l.getD (j - 1) dummySR) save then
    insInner (l.set j (l.getD (j - 1) dummySR)) left save (j - 1)
  else l.set j save
  termination_by j
  decreasing_by omega

/-- Outer loop of `insertionSort` (runtime_search.go): `i` from `left + 1`
to `right`. -/
def insRangeAux (l : List SearchResult) (left i right : Nat) : List SearchResult :=
  if i ≤ right then insRangeAux (insInner l left (l.getD i dummySR) i) left (i + 1) right
  else l
  termination_by right + 1 - i
  decreasing_by omega

/-- Embedding of `insertionSort` (runtime_search.go) on the index range
`[left, right]`. -/
def insertionSortRangeGo (l : List SearchResult) (left right : Nat) : List SearchResult :=
  insRangeAux l left (left + 1) right

/-- Inner shifting loop of `shellSort` (runtime_search.go) for one gap:
shift elements `gap` apart while they compare after `save`, then place
`save`.  The source only calls this with gaps 5, 3, 1, all positive; the
`0 < gap` conjunct makes the recursion well-founded for arbitrary `gap`. -/
def gapInner (l : List SearchResult) (gap : Nat) (save : SearchResult) (j : Nat) :
    List SearchResult :=
  if h : 0 < gap ∧ gap ≤ j ∧ candLess (l.getD (j - gap) dummySR) save then
    gapInner (l.set j (l.getD (j - gap) dummySR)) gap save (j - gap)
  else l.set j save
  termination_by j
  decreasing_by omega

/-- Per-gap loop of `shellSort` (runtime_search.go): `i` from `gap` to
`n - 1`, where `n = ctx.candidateCount` is read once before the passes. -/
def gapPassAux (gap n : Nat) : List SearchResult → Nat → List SearchResult
  | l, i =>
    if i < n then gapPassAux gap n (gapInner l gap (l.getD i dummySR) i) (i + 1)
    else l
  termination_by _ i => n - i
  decreasing_by omega

/-- Embedding of `shellSort` (runtime_search.go) with the gap sequence
5, 3, 1. -/
def shellSortGo (l : List SearchResult) : List SearchResult :=
  gapPassAux 1 l.length (gapPassAux 3 l.length (gapPassAux 5 l.length l 5) 3) 1

/-- Embedding of the loop of `partition3Way` (runtime_search.go):
Dutch-national-flag partitioning against the pivot's score and id; the
`cmp < 0` branch decrements `gt` before swapping, as in the source. -/
def ptnLoop (pivotS : ℚ) (pivotID : List Nat) :
    List SearchResult → Nat → Nat → Nat → List SearchResult × Nat × Nat
  | l, lt, i, gt =>
    if i < gt then
      let e := l.getD i dummySR
      let c := compareScoreAndID e.Score e.ID pivotS pivotID
      if c > 0 then ptnLoop pivotS pivotID (swapCands l lt i) (lt + 1) (i + 1) gt
      else if c < 0 then ptnLoop pivotS pivotID (swapCands l i (gt - 1)) lt i (gt - 1)
      else ptnLoop pivotS pivotID l lt (i + 1) gt
    else (l, lt, gt)
  termination_by _ _ i gt => gt - i
  decreasing_by all_goals omega

/-- Embedding of `partition3Way` (runtime_search.go): pivot is the element
at `low`; returns the final array and the boundaries `(lt, gt)` of the
equal-to-pivot region. -/
def partition3Way (l : List SearchResult) (low high : Nat) :
    List SearchResult × Nat × Nat :=
  let p := l.getD low dummySR
  let r := ptnLoop p.Score p.ID l low (low + 1) (high + 1)
  (r.1, r.2.1, r.2.2 - 1)

/-- Bounds of the partition loop needed for `quickSortGo`'s termination:
`lt` stays below the running `i`, which stays at most `gt`. -/
theorem ptnLoop_le (pivotS : ℚ) (pivotID : List Nat) :
    ∀ gti : Nat, ∀ l lt i gt, gt - i = gti → lt < i → i ≤ gt →
      lt ≤ (ptnLoop pivotS pivotID l lt i gt).2.1 ∧
      (ptnLoop pivotS pivotID l lt i gt).2.1 < (ptnLoop pivotS pivotID l lt i gt).2.2 ∧
      (ptnLoop pivotS pivotID l lt i gt).2.2 ≤ gt := by
  intro gti
  induction gti using Nat.strong_induction_on with
  | _ gti ih =>
    intro l lt i gt hgti hlt hle
    rw [ptnLoop]
    by_cases hig : i < gt
    · simp only [hig, if_true]
      split
      · have h := ih (gt - (i + 1)) (by omega) (swapCands l lt i) (lt + 1) (i + 1) gt
          rfl (by omega) (by omega)
        exact ⟨by omega, h.2.1, h.2.2⟩
      · split
        · have h := ih ((gt - 1) - i) (by omega) (swapCands l i (gt - 1)) lt i (gt - 1)
            rfl (by omega) (by omega)
          exact ⟨h.1, h.2.1, by omega⟩
        · have h := ih (gt - (i + 1)) (by omega) l lt (i + 1) gt rfl (by omega) (by omega)
          exact h
    · simp only [hig, if_false]
      exact ⟨by omega, by omega, by omega⟩

/-- Bounds of `partition3Way` used for `quickSortGo`'s termination. -/
theorem partition3Way_bounds (l : List SearchResult) (low high : Nat)
    (h : low < high) :
    low ≤ (partition3Way l low high).2.1 ∧
    (partition3Way l low high).2.1 ≤ (partition3Way l low high).2.2 ∧
    (partition3Way l low high).2.2 ≤ high := by
  have hb := ptnLoop_le (l.getD low dummySR).Score (l.getD low dummySR).ID
    (high + 1 - (low + 1)) l low (low + 1) (high + 1) rfl (by omega) (by omega)
  simp only [partition3Way]
  omega

/-- Embedding of `quickSort` (runtime_search.go): 3-way partitioning with
insertion-sort fallback below 10 elements; the smaller partition is sorted
by the recursive call and the tail loop on the larger partition becomes the
second recursive call. -/
def quickSortGo (l : List SearchResult) (low high : Nat) : List SearchResult :=
  if hlh : low < high then
    if high - low < 10 then insertionSortRangeGo l low high
    else
      let r := partition3Way l low high
      if r.2.1 - low < high - r.2.2 then
        quickSortGo (quickSortGo r.1 low (r.2.1 - 1)) (r.2.2 + 1) high
      else
        quickSortGo (quickSortGo r.1 (r.2.2 + 1) high) low (r.2.1 - 1)
  else l
  termination_by high + 1 - low
  decreasing_by
    all_goals
      have hb := partition3Way_bounds l low high hlh
      omega

/-- Embedding of `sortCandidates` (runtime_search.go): size-based dispatch
between the three algorithms. -/
def sortCandidates (l : List SearchResult) : List SearchResult :=
  let n := l.length
  if n ≤ 1 then l
  else if n ≤ 10 then insertionSortRangeGo l 0 (n - 1)
  else if n ≤ 50 then shellSortGo l
  else quickSortGo l 0 (n - 1)

/-- Embedding of `convertToResultsOneAlloc` (runtime_search.go): copy the
top `min (candidateCount, maxResults)` ranked candidates into a fresh
slice (`maxResults` is a Go `int`, hence `Int` here). -/
def convertToResultsOneAlloc (cands : List SearchResult) (maxResults : Int) :
    List SearchResult :=
  let limit := min (cands.length : Int) maxResults
  if limit = 0 then [] else cands.take limit.toNat

/-- Embedding of `convertToResultsZeroAlloc` (runtime_search.go): the limit
is additionally clamped to the caller-supplied buffer's length; returns the
buffer after the writes together with the view `resultBuffer[:limit]`. -/
def convertToResultsZeroAlloc (cands : List SearchResult) (maxResults : Int)
    (resultBuffer : List SearchResult) : List SearchResult × List SearchResult :=
  let limit0 := min (cands.length : Int) maxResults
  let limit := if limit0 > (resultBuffer.length : Int) then (resultBuffer.length : Int)
    else limit0
  if limit = 0 then (resultBuffer, [])
  else
    let newBuf := cands.take limit.toNat ++ resultBuffer.drop limit.toNat
    (newBuf, newBuf.take limit.toNat)

/-- Embedding of `performSearchOneAlloc` (runtime_search.go): the pooled
`Context` is obtained reset, so the query fields are computed fresh. -/
def performSearchOneAlloc (data : List (List Nat × List Nat)) (query : List Nat)
    (maxResults : Int) (useCache : Bool) : List SearchResult :=
  let q := mkQueryCtx query
  let cands := if useCache then searchWithCache data q else searchDirect data q
  convertToResultsOneAlloc (sortCandidates cands) maxResults

/-- Embedding of `performSearchZeroAlloc` (runtime_search.go): same pipeline
into the caller-supplied buffer; `.1` is the buffer memory after the call,
`.2` the returned view. -/
def performSearchZeroAlloc (data : List (List Nat × List Nat)) (query : List Nat)
    (maxResults : Int) (useCache : Bool) (resultBuffer : List SearchResult) :
    List SearchResult × List SearchResult :=
  let q := mkQueryCtx query
  let cands := if useCache then searchWithCache data q else searchDirect data q
  convertToResultsZeroAlloc (sortCandidates cands) maxResults resultBuffer

/-- Embedding of `SearchEngine.Search` (engine.go). -/
def Search (data : List (List Nat × List Nat)) (query : List Nat)
    (maxResults : Int) : List SearchResult :=
  if maxResults ≤ 0 ∨ data.length = 0 ∨ query.length = 0 then []
  else if data.length ≤ 1000 then performSearchOneAlloc data query maxResults false
  else performSearchOneAlloc data query maxResults true

/-- Embedding of `SearchEngine.SearchInto` (engine.go); `.1` models the
caller's buffer after the call, `.2` the returned view (`nil` on the
guard path). -/
def SearchInto (data : List (List Nat × List Nat)) (query : List Nat)
    (resultBuffer : List SearchResult) : List SearchResult × List SearchResult :=
  if resultBuffer.length = 0 ∨ data.length = 0 ∨ query.length = 0 then (resultBuffer, [])
  else if data.length ≤ 1000 then
    performSearchZeroAlloc data query (resultBuffer.length : Int) false resultBuffer
  else
    performSearchZeroAlloc data query (resultBuffer.length : Int) true resultBuffer

/-- Embedding of `QuickSearch` (engine.go): direct search, no cache. -/
def QuickSearch (data : List (List Nat × List Nat)) (query : List Nat)
    (maxResults : Int) : List SearchResult :=
  if maxResults ≤ 0 ∨ data.length = 0 ∨ query.length = 0 then []
  else performSearchOneAlloc data query maxResults false

/-- Embedding of `QuickSearchInto` (engine.go). -/
def QuickSearchInto (data : List (List Nat × List Nat)) (query : List Nat)
    (resultBuffer : List SearchResult) : List SearchResult × List SearchResult :=
  if resultBuffer.length = 0 ∨ data.length = 0 ∨ query.length = 0 then (resultBuffer, [])
  else performSearchZeroAlloc data query (resultBuffer.length : Int) false resultBuffer

/-! Ordering facts about the byte-wise string comparison. -/

theorem strLt_nil_right (a : List Nat) : strLt a [] = false := by
  cases a <;> rfl

theorem strLt_irrefl (a : List Nat) : strLt a a = false := by
  induction a with
  | nil => rfl
  | cons x xs ih => simp [strLt, ih]

theorem strLt_asymm : ∀ a b : List Nat, strLt a b = true → strLt b a = false
  | a, [], h => by rw [strLt_nil_right] at h; cases h
  | [], _ :: _, _ => rfl
  | a :: as, b :: bs, h => by
    simp only [strLt] at h ⊢
    rcases Nat.lt_trichotomy a b with hab | hab | hab
    · simp [hab, Nat.lt_asymm hab, Nat.ne_of_gt hab]
    · subst hab
      simp only [lt_irrefl, if_false] at h ⊢
      exact strLt_asymm as bs h
    · simp [hab, Nat.lt_asymm hab] at h

theorem strLt_trans : ∀ a b c : List Nat,
    strLt a b = true → strLt b c = true → strLt a c = true
  | _, b, [], _, h => by rw [strLt_nil_right] at h; cases h
  | a, [], _ :: _, h, _ => by rw [strLt_nil_right] at h; cases h
  | [], _ :: _, _ :: _, _, _ => rfl
  | a :: as, b :: bs, c :: cs, h1, h2 => by
    simp only [strLt] at h1 h2 ⊢
    rcases Nat.lt_trichotomy a b with hab | hab | hab
    · rcases Nat.lt_trichotomy b c with hbc | hbc | hbc
      · simp [Nat.lt_trans hab hbc]
      · subst hbc; simp [hab]
      · simp [hbc, Nat.lt_asymm hbc] at h2
    · subst hab
      rcases Nat.lt_trichotomy a c with hac | hac | hac
      · simp [hac]
      · subst hac
        simp only [lt_irrefl, if_false] at h1 h2 ⊢
        exact strLt_trans as bs cs h1 h2
      · simp [hac, Nat.lt_asymm hac] at h2
    · simp [hab, Nat.lt_asymm hab] at h1

theorem strLt_conn : ∀ a b : List Nat,
    strLt a b = false → strLt b a = false → a = b
  | [], [], _, _ => rfl
  | [], _ :: _, h, _ => by cases h
  | _ :: _, [], _, h => by cases h
  | a :: as, b :: bs, h1, h2 => by
    simp only [strLt] at h1 h2
    rcases Nat.lt_trichotomy a b with hab | hab | hab
    · simp [hab] at h1
    · subst hab
      simp only [lt_irrefl, if_false] at h1 h2
      rw [strLt_conn as bs h1 h2]
    · simp [hab, Nat.lt_asymm hab] at h2

/-! Claim C4: decodeRune on malformed or truncated input. -/

/-- Sequence length implied by a UTF-8 leading byte, following the
classification thresholds of `decodeRune`. -/
def utf8ImpliedLen (b0 : Nat) : Nat :=
  if b0 < 0x80 then 1 else if b0 < 0xE0 then 2 else if b0 < 0xF0 then 3 else 4

/-- Claim C4 (counterexample): on the malformed input starting with the
continuation byte 0x80 and a second byte present, `decodeRune` does not
return `(U+FFFD, 1)` — it mask-decodes the pair as a 2-byte sequence,
yielding code point 0 with consumed length 2. -/
theorem C4_counterexample :
    decodeRune [0x80, 0x80] ≠ (0xFFFD, 1) ∧ decodeRune [0x80, 0x80] = (0, 2) := by
  constructor <;> decide

/-- Claim C4 (amended): for every non-empty input that is shorter than the
length implied by its leading byte, `decodeRune` returns the replacement
code point U+FFFD with consumed length exactly 1.  (Leading bytes that do
not match a known pattern — continuation bytes 0x80–0xBF or bytes ≥ 0xF8 —
are not replaced: when enough bytes are present they are mask-decoded as 2-
or 4-byte sequences.) -/
theorem C4_theorem (b0 : Nat) (rest : List Nat)
    (h : (b0 :: rest).length < utf8ImpliedLen b0) :
    decodeRune (b0 :: rest) = (0xFFFD, 1) := by
  simp only [utf8ImpliedLen, List.length_cons] at h
  simp only [decodeRune]
  split_ifs at h ⊢ <;> first | rfl | omega

/-- Claim C4 (witness): the 3-byte leading byte 0xE4 with no continuation
bytes. -/
theorem C4_witness : decodeRune [0xE4] = (0xFFFD, 1) :=
  C4_theorem 0xE4 [] (by decide)

/-! Claim C8: normalization is idempotent on ASCII inputs. -/

/-- ASCII case folding applied by the fast path of `normalizeText`. -/
def lcByte (b : Nat) : Nat := if 65 ≤ b ∧ b ≤ 90 then b + 32 else b

theorem normalizeAux_ascii (text : List Nat) (h : ∀ b ∈ text, b < 128) :
    ∀ fuel len maxLen, text.length ≤ fuel →
      normalizeAux fuel text len maxLen = (text.take (maxLen - len)).map lcByte := by
  induction text with
  | nil => intro fuel len maxLen _; cases fuel <;> simp [normalizeAux]
  | cons r rest ih =>
    intro fuel len maxLen hfuel
    have hr : r < 128 := h r (List.mem_cons_self r rest)
    cases fuel with
    | zero => simp at hfuel
    | succ f =>
      by_cases hlen : len < maxLen
      · rw [normalizeAux]
        simp only [hlen, if_true, hr, if_true]
        have htake : maxLen - len = (maxLen - (len + 1)) + 1 := by omega
        rw [ih (fun b hb => h b (List.mem_cons_of_mem r hb)) f (len + 1) maxLen
          (by simp only [List.length_cons] at hfuel; omega), htake, List.take_succ_cons,
          List.map_cons]
        rfl
      · rw [normalizeAux]
        simp only [hlen, if_false]
        have : maxLen - len = 0 := by omega
        simp [this]

theorem lcByte_idem (b : Nat) : lcByte (lcByte b) = lcByte b := by
  unfold lcByte
  split_ifs <;> omega

theorem lcByte_lt_128 (b : Nat) (h : b < 128) : lcByte b < 128 := by
  unfold lcByte
  split_ifs <;> omega

/-- Claim C8: normalization is idempotent on ASCII text, for any buffer
capacity (in particular for buffers large enough to hold the text). -/
theorem C8_theorem (text : List Nat) (cap : Nat) (h : ∀ b ∈ text, b < 128) :
    normalizeText (normalizeText text cap) cap = normalizeText text cap := by
  unfold normalizeText
  rw [normalizeAux_ascii text h text.length 0 (cap - 4) le_rfl]
  simp only [Nat.sub_zero]
  have hasc : ∀ b ∈ (text.take (cap - 4)).map lcByte, b < 128 := by
    intro b hb
    rcases List.mem_map.mp hb with ⟨c, hc, rfl⟩
    exact lcByte_lt_128 c (h c (List.mem_of_mem_take hc))
  rw [normalizeAux_ascii _ hasc ((text.take (cap - 4)).map lcByte).length 0 (cap - 4) le_rfl]
  simp only [Nat.sub_zero]
  have hlen : ((text.take (cap - 4)).map lcByte).length ≤ cap - 4 := by
    simp [List.length_take]
  rw [List.take_of_length_le hlen, List.map_map]
  congr 1
  funext b
  exact lcByte_idem b

/-- Claim C8 (witness): the ASCII text "Hi" in a 16-byte buffer. -/
theorem C8_witness :
    normalizeText (normalizeText [72, 105] 16) 16 = normalizeText [72, 105] 16 :=
  C8_theorem [72, 105] 16 (by decide)

/-! Claim C7: degenerate inputs are explicit no-ops at every entry point. -/

/-- Claim C7: for every entry point, an absent corpus or empty query yields
an empty result; a non-positive result cap does so for `Search` and
`QuickSearch`; a zero-capacity buffer does so for `SearchInto` and
`QuickSearchInto`.  The embedded functions are total, so no error or fault
is signalled on these paths. -/
theorem C7_theorem (data : List (List Nat × List Nat)) (query : List Nat)
    (maxResults : Int) (buffer : List SearchResult) :
    ((data = [] ∨ query = []) →
      Search data query maxResults = [] ∧
      QuickSearch data query maxResults = [] ∧
      (SearchInto data query buffer).2 = [] ∧
      (QuickSearchInto data query buffer).2 = []) ∧
    (maxResults ≤ 0 →
      Search data query maxResults = [] ∧ QuickSearch data query maxResults = []) ∧
    (buffer = [] →
      (SearchInto data query buffer).2 = [] ∧ (QuickSearchInto data query buffer).2 = []) := by
  refine ⟨fun h => ?_, fun h => ?_, fun h => ?_⟩
  · rcases h with h | h <;> subst h <;>
      simp [Search, QuickSearch, SearchInto, QuickSearchInto]
  · simp [Search, QuickSearch, h]
  · subst h
    simp [SearchInto, QuickSearchInto]

/-- Claim C7 (witness): empty corpus, concrete query, cap 5, a one-slot
buffer. -/
theorem C7_witness :
    Search [] [104] 5 = [] ∧ QuickSearch [] [104] 5 = [] ∧
    (SearchInto [] [104] [dummySR]).2 = [] ∧ (QuickSearchInto [] [104] [dummySR]).2 = [] :=
  (C7_theorem [] [104] 5 [dummySR]).1 (Or.inl rfl)

/-! Claim C3: posting lists after a rebuild. -/

/-- Number of valid word spans of `text`'s normalized form (4096-byte index
buffer, 256-span limit) whose bytes equal `w` — exactly the spans for which
`buildIndex` appends the document id under `w`. -/
def wordOccurrences (text w : List Nat) : Nat :=
  ((splitWords (normalizeText text 4096) 256).filter
    (fun s => decide (s.1 < s.2 ∧ s.2 ≤ (normalizeText text 4096).length) &&
      (((normalizeText text 4096).drop s.1).take (s.2 - s.1) == w))).length

theorem lookup_mapAppend (m : List (List Nat × List (List Nat))) (k v w : List Nat) :
    List.lookup w (mapAppend m k v) =
      if w = k then some (((List.lookup k m).getD []) ++ [v]) else List.lookup w m := by
  induction m with
  | nil =>
    by_cases h : w = k
    · subst h; simp [mapAppend, List.lookup]
    · simp [mapAppend, List.lookup, h, beq_false_of_ne h]
  | cons e rest ih =>
    obtain ⟨k', vs⟩ := e
    by_cases hk : k' = k
    · subst hk
      by_cases hw : w = k'
      · subst hw; simp [mapAppend, List.lookup]
      · simp [mapAppend, List.lookup, hw, beq_false_of_ne hw]
    · simp only [mapAppend, if_neg hk]
      by_cases hw : w = k'
      · subst hw
        simp [List.lookup, hk]
      · simp [List.lookup, beq_false_of_ne hw, ih, beq_false_of_ne (Ne.symm hk)]

theorem count_buildWordEntries (spans : List (Nat × Nat)) :
    ∀ (wm : List (List Nat × List (List Nat))) (id norm w x : List Nat),
    (((buildWordEntries wm id norm spans).lookup w).getD []).count x
      = ((wm.lookup w).getD []).count x +
        if x = id then
          (spans.filter (fun s => decide (s.1 < s.2 ∧ s.2 ≤ norm.length) &&
            ((norm.drop s.1).take (s.2 - s.1) == w))).length
        else 0 := by
  induction spans with
  | nil =>
    intro wm id norm w x
    simp [buildWordEntries]
  | cons s rest ih =>
    intro wm id norm w x
    rw [show buildWordEntries wm id norm (s :: rest)
        = buildWordEntries (if s.1 < s.2 ∧ s.2 ≤ norm.length then
            mapAppend wm ((norm.drop s.1).take (s.2 - s.1)) id else wm) id norm rest
      from rfl]
    rw [ih]
    by_cases hv : s.1 < s.2 ∧ s.2 ≤ norm.length
    · rw [if_pos hv, lookup_mapAppend]
      by_cases hw : w = (norm.drop s.1).take (s.2 - s.1)
      · rw [if_pos hw, hw]
        rw [List.filter_cons_of_pos
          (by simp only [decide_eq_true hv, hw.symm ▸ beq_self_eq_true w, Bool.and_self]),
          List.length_cons]
        simp only [Option.getD_some, List.count_append]
        by_cases hx : x = id
        · subst hx
          rw [if_pos rfl, if_pos rfl, List.count_singleton]
          simp only [beq_self_eq_true, if_true]
          omega
        · rw [if_neg hx, if_neg hx]
          have hzero : List.count x [id] = 0 := by
            rw [List.count_eq_zero]
            simp [hx]
          omega
      · rw [if_neg hw, List.filter_cons_of_neg
          (by have hb : ((norm.drop s.1).take (s.2 - s.1) == w) = false :=
                beq_false_of_ne (fun h => hw h.symm)
              simp [hb])]
    · rw [if_neg hv, List.filter_cons_of_neg
        (by have hb : decide (s.1 < s.2 ∧ s.2 ≤ norm.length) = false := decide_eq_false hv
            simp [hb])]

theorem count_buildIndexAux (data : List (List Nat × List Nat)) :
    ∀ (wm tg : List (List Nat × List (List Nat))) (w x : List Nat),
    (((data.foldl buildIndexStep (wm, tg)).1.lookup w).getD []).count x
      = ((wm.lookup w).getD []).count x +
        (data.map (fun d => if x = d.1 then wordOccurrences d.2 w else 0)).sum := by
  induction data with
  | nil => intro wm tg w x; simp
  | cons d rest ih =>
    intro wm tg w x
    rw [List.foldl_cons, show buildIndexStep (wm, tg) d
        = (buildWordEntries wm d.1 (normalizeText d.2 4096)
            (splitWords (normalizeText d.2 4096) 256),
           buildTrigramEntries tg d.1 (normalizeText d.2 4096)) from rfl]
    rw [ih, count_buildWordEntries]
    simp only [List.map_cons, List.sum_cons, wordOccurrences]
    omega

/-- Claim C3 (counterexample): in the one-document corpus whose text
`"hello hello"` repeats a word, the rebuilt inverted index lists the
document id twice under the word `"hello"`. -/
theorem C3_counterexample :
    ¬ ((((buildIndex
        [([100], [104, 101, 108, 108, 111, 32, 104, 101, 108, 108, 111])]).cachedWordMap.lookup
          [104, 101, 108, 108, 111]).getD []).count [100] ≤ 1) := by
  decide

/-- Claim C3 (amended): after a rebuild from a corpus with unique
identifiers, the posting list of a word `w` contains a document's
identifier exactly once per occurrence of `w` among the document's computed
word spans — so a word repeated inside one document produces duplicate
entries (deduplication happens later, in `addToCandidateSet`). -/
theorem C3_theorem (data : List (List Nat × List Nat)) (id text w : List Nat)
    (hmem : (id, text) ∈ data) (hnodup : (data.map Prod.fst).Nodup) :
    (((buildIndex data).cachedWordMap.lookup w).getD []).count id
      = wordOccurrences text w := by
  have hcount := count_buildIndexAux data [] [] w id
  rw [show (buildIndex data).cachedWordMap = (data.foldl buildIndexStep ([], [])).1 from rfl,
    hcount]
  simp only [List.lookup, Option.getD_none, List.count_nil, Nat.zero_add]
  clear hcount
  induction data with
  | nil => cases hmem
  | cons d rest ih =>
    simp only [List.map_cons, List.nodup_cons] at hnodup
    rcases List.mem_cons.mp hmem with heq | hmem'
    · subst heq
      simp only [List.map_cons, List.sum_cons, if_pos rfl]
      have hz : (rest.map (fun d => if id = d.1 then wordOccurrences d.2 w else 0)).sum = 0 := by
        apply List.sum_eq_zero
        intro n hn
        rcases List.mem_map.mp hn with ⟨e, he, rfl⟩
        have : id ≠ e.1 := by
          intro h
          exact hnodup.1 (h ▸ List.mem_map.mpr ⟨e, he, rfl⟩)
        simp [this]
      simp [hz]
    · have hne : id ≠ d.1 := by
        intro h
        exact hnodup.1 (h ▸ List.mem_map_of_mem Prod.fst hmem')
      simp only [List.map_cons, List.sum_cons, if_neg hne, Nat.zero_add]
      exact ih hmem' hnodup.2

/-- Claim C3 (amended, witness): corpus `{"d": "hello hello"}`, word
`"hello"` occurs twice, so the id is listed twice. -/
theorem C3_witness :
    (((buildIndex
      [([100], [104, 101, 108, 108, 111, 32, 104, 101, 108, 108, 111])]).cachedWordMap.lookup
        [104, 101, 108, 108, 111]).getD []).count [100]
      = wordOccurrences [104, 101, 108, 108, 111, 32, 104, 101, 108, 108, 111]
          [104, 101, 108, 108, 111] :=
  C3_theorem _ [100] _ _ (by decide) (by decide)

/-! Claim C9: the candidate set stays sorted, deduplicated and
capacity-bounded. -/

/-- The candidate-set invariant: strictly increasing in the byte-wise
string order (hence duplicate-free). -/
def sortedSet (set : List (List Nat)) : Prop :=
  set.Pairwise (fun a b => strLt a b = true)

instance (set : List (List Nat)) : Decidable (sortedSet set) := by
  unfold sortedSet
  infer_instance

theorem sortedSet_get (set : List (List Nat)) (hsort : sortedSet set)
    (j k : Nat) (hjk : j < k) (hk : k < set.length) :
    strLt (set.getD j []) (set.getD k []) = true := by
  rw [List.getD_eq_getElem set [] (Nat.lt_trans hjk hk), List.getD_eq_getElem set [] hk]
  exact List.pairwise_iff_getElem.mp hsort j k (Nat.lt_trans hjk hk) hk hjk

theorem bsLoop_spec (set : List (List Nat)) (docID : List Nat)
    (hsort : sortedSet set) :
    ∀ fuel left right, right - left ≤ fuel → left ≤ right → right ≤ set.length →
      (∀ k, k < left → strLt (set.getD k []) docID = true) →
      (∀ k, right ≤ k → k < set.length → strLt (set.getD k []) docID = false) →
      left ≤ bsLoop set docID fuel left right ∧
      bsLoop set docID fuel left right ≤ right ∧
      (∀ k, k < bsLoop set docID fuel left right → strLt (set.getD k []) docID = true) ∧
      (∀ k, bsLoop set docID fuel left right ≤ k → k < set.length →
        strLt (set.getD k []) docID = false) := by
  intro fuel
  induction fuel with
  | zero =>
    intro left right hfuel hlr hrlen hlo hhi
    have : left = right := by omega
    subst this
    exact ⟨le_rfl, le_rfl, hlo, hhi⟩
  | succ f ih =>
    intro left right hfuel hlr hrlen hlo hhi
    rw [bsLoop]
    by_cases hlt : left < right
    · simp only [hlt, if_true]
      have hmid1 : left ≤ (left + right) / 2 := by omega
      have hmid2 : (left + right) / 2 < right := by omega
      by_cases hcmp : strLt (set.getD ((left + right) / 2) []) docID = true
      · simp only [hcmp, if_true]
        have h := ih ((left + right) / 2 + 1) right (by omega) (by omega) hrlen
          (fun k hk => by
            rcases Nat.lt_or_ge k ((left + right) / 2) with hk2 | hk2
            · exact strLt_trans _ _ _
                (sortedSet_get set hsort k ((left + right) / 2) hk2 (by omega)) hcmp
            · have : k = (left + right) / 2 := by omega
              subst this
              exact hcmp)
          hhi
        exact ⟨by omega, h.2.1, h.2.2.1, h.2.2.2⟩
      · rw [if_neg hcmp]
        have h := ih left ((left + right) / 2) (by omega) (by omega) (by omega) hlo
          (fun k hk hklen => by
            rcases Nat.lt_or_ge k ((left + right) / 2 + 1) with hk2 | hk2
            · have : k = (left + right) / 2 := by omega
              subst this
              exact Bool.not_eq_true _ ▸ eq_false_of_ne_true hcmp
            · rcases Bool.eq_false_or_eq_true (strLt (set.getD k []) docID) with ht | hf
              · exact absurd
                  (strLt_trans _ _ _
                    (sortedSet_get set hsort ((left + right) / 2) k (by omega) hklen) ht)
                  (fun hc => hcmp hc)
              · exact hf)
        exact ⟨h.1, by omega, h.2.2.1, h.2.2.2⟩
    · simp only [hlt, if_false]
      have : left = right := by omega
      subst this
      exact ⟨le_rfl, le_rfl, hlo, hhi⟩

theorem getD_mem (set : List (List Nat)) (k : Nat) (hk : k < set.length) :
    set.getD k [] ∈ set := by
  rw [List.getD_eq_getElem set [] hk]
  exact List.getElem_mem hk

theorem mem_take_getD (set : List (List Nat)) (a : List Nat) (n : Nat)
    (ha : a ∈ set.take n) : ∃ k, k < n ∧ k < set.length ∧ set.getD k [] = a := by
  rcases List.mem_iff_getElem.mp ha with ⟨k, hk, hget⟩
  have hlen : k < n ∧ k < set.length := by
    have := hk
    simp only [List.length_take, lt_min_iff] at this
    exact this
  refine ⟨k, hlen.1, hlen.2, ?_⟩
  rw [List.getD_eq_getElem set [] hlen.2, ← hget, List.getElem_take]

theorem mem_drop_getD (set : List (List Nat)) (a : List Nat) (n : Nat)
    (ha : a ∈ set.drop n) : ∃ k, n ≤ k ∧ k < set.length ∧ set.getD k [] = a := by
  rcases List.mem_iff_getElem.mp ha with ⟨k, hk, hget⟩
  have hlen : n + k < set.length := by
    have := hk
    simp only [List.length_drop] at this
    omega
  refine ⟨n + k, by omega, hlen, ?_⟩
  rw [List.getD_eq_getElem set [] hlen, ← hget, List.getElem_drop]

theorem insertCandID_spec (set : List (List Nat)) (docID : List Nat)
    (hsort : sortedSet set) (hlen : set.length ≤ 1024) :
    sortedSet (insertCandID set docID) ∧ (insertCandID set docID).length ≤ 1024 := by
  unfold insertCandID
  have hb := bsLoop_spec set docID hsort set.length 0 set.length (by omega) (by omega)
    le_rfl (fun k hk => absurd hk (Nat.not_lt_zero k)) (fun k hk hk2 => absurd hk2 (by omega))
  set res := bsLoop set docID set.length 0 set.length with hres
  by_cases hdup : res < set.length ∧ set.getD res [] = docID
  · simp only [hdup, and_self, if_true]
    exact ⟨hsort, hlen⟩
  · rw [if_neg hdup]
    by_cases hcap : set.length < 1024
    · simp only [hcap, if_true]
      constructor
      · rw [show docID :: set.drop res = [docID] ++ set.drop res from rfl, ← List.append_assoc]
        apply List.pairwise_append.mpr
        refine ⟨?_, ?_, ?_⟩
        · apply List.pairwise_append.mpr
          refine ⟨List.Pairwise.sublist (List.take_sublist res set) hsort,
            List.pairwise_singleton _ _, ?_⟩
          intro a ha b hb'
          rcases mem_take_getD set a res ha with ⟨k, hk, hklen, rfl⟩
          rw [List.mem_singleton.mp hb']
          exact hb.2.2.1 k hk
        · exact List.Pairwise.sublist (List.drop_sublist res set) hsort
        · intro a ha b hb'
          rcases mem_drop_getD set b res hb' with ⟨k, hk, hklen, rfl⟩
          rcases List.mem_append.mp ha with ha2 | ha2
          · rcases mem_take_getD set a res ha2 with ⟨j, hj, hjlen, rfl⟩
            exact sortedSet_get set hsort j k (by omega) hklen
          · rw [List.mem_singleton.mp ha2]
            have hne : set.getD k [] ≠ docID := by
              intro heq
              rcases Nat.lt_or_ge res set.length with hr | hr
              · rcases Nat.eq_or_lt_of_le hk with hk2 | hk2
                · exact hdup ⟨hr, hk2 ▸ heq⟩
                · have h1 := sortedSet_get set hsort res k hk2 hklen
                  have h2 := hb.2.2.2 res le_rfl hr
                  rw [heq] at h1
                  rw [h2] at h1
                  cases h1
              · omega
            have hnl := hb.2.2.2 k hk hklen
            rcases Bool.eq_false_or_eq_true (strLt docID (set.getD k [])) with ht | hf
            · exact ht
            · exact absurd (strLt_conn _ _ hf hnl).symm hne
      · simp only [List.length_append, List.length_cons, List.length_take, List.length_drop]
        omega
    · simp only [hcap, if_false]
      exact ⟨hsort, hlen⟩

/-- Claim C9: `addToCandidateSet` preserves the sorted-strictly-increasing
(hence deduplicated) candidate-set invariant for every inserted identifier,
and never grows the set beyond the fixed 1024-entry capacity (insertions
beyond it are dropped; the function is total, so no error is signalled). -/
theorem C9_theorem (docIDs : List (List Nat)) :
    ∀ set : List (List Nat), sortedSet set → set.length ≤ 1024 →
      sortedSet (addToCandidateSet docIDs set) ∧
      (addToCandidateSet docIDs set).Nodup ∧
      (addToCandidateSet docIDs set).length ≤ 1024 := by
  induction docIDs with
  | nil =>
    intro set hsort hlen
    exact ⟨hsort, List.Pairwise.imp (fun h => by
      intro heq
      subst heq
      rw [strLt_irrefl] at h
      cases h) hsort, hlen⟩
  | cons docID rest ih =>
    intro set hsort hlen
    rw [addToCandidateSet]
    by_cases hcap : set.length ≥ 1024
    · simp only [hcap, if_true]
      exact ⟨hsort, List.Pairwise.imp (fun h => by
        intro heq
        subst heq
        rw [strLt_irrefl] at h
        cases h) hsort, hlen⟩
    · simp only [hcap, if_false]
      have hstep := insertCandID_spec set docID hsort hlen
      exact ih (insertCandID set docID) hstep.1 hstep.2

/-- Claim C9 (witness): inserting ids out of order with a duplicate into an
initially empty set. -/
theorem C9_witness :
    sortedSet (addToCandidateSet [[5], [3], [5]] []) ∧
    (addToCandidateSet [[5], [3], [5]] []).Nodup ∧
    (addToCandidateSet [[5], [3], [5]] []).length ≤ 1024 :=
  C9_theorem [[5], [3], [5]] [] (by decide) (by decide)

/-! Claim C2: the three ranking algorithms.  First, order facts about the
comparator. -/

theorem strLt_false_trans (a b c : List Nat) (h1 : strLt b a = false)
    (h2 : strLt c b = false) : strLt c a = false := by
  rcases Bool.eq_false_or_eq_true (strLt c a) with hca | hca
  · rcases Bool.eq_false_or_eq_true (strLt a b) with hab | hab
    · have := strLt_trans c a b hca hab
      rw [h2] at this
      cases this
    · have heq := strLt_conn a b hab h1
      rw [← heq] at h2
      exact h2
  · exact hca

/-- The non-strict companion of `candLess`: `u` may stay before `v` in the
final ranking. -/
def candLE (u v : SearchResult) : Prop := candLess u v = false

theorem candLess_asymm (a b : SearchResult) (h : candLess a b = true) :
    candLess b a = false := by
  simp only [candLess, Bool.or_eq_true, decide_eq_true_eq, Bool.and_eq_true] at h
  simp only [candLess, Bool.or_eq_false_iff, decide_eq_false_iff_not, Bool.and_eq_false_iff,
    decide_eq_false_iff_not]
  rcases h with h | ⟨he, hid⟩
  · exact ⟨not_lt_of_lt h, Or.inl (ne_of_gt h)⟩
  · exact ⟨by rw [he]; exact lt_irrefl _, Or.inr (strLt_asymm _ _ hid)⟩

theorem candLE_total (a b : SearchResult) : candLE a b ∨ candLE b a := by
  rcases Bool.eq_false_or_eq_true (candLess a b) with h | h
  · exact Or.inr (candLess_asymm a b h)
  · exact Or.inl h

theorem candLE_iff (u v : SearchResult) :
    candLE u v ↔ v.Score < u.Score ∨ (u.Score = v.Score ∧ strLt v.ID u.ID = false) := by
  unfold candLE candLess
  simp only [Bool.or_eq_false_iff, decide_eq_false_iff_not, not_lt, Bool.and_eq_false_iff,
    decide_eq_false_iff_not]
  constructor
  · rintro ⟨hle, h | h⟩
    · exact Or.inl (lt_of_le_of_ne hle (fun heq => h heq.symm))
    · rcases lt_or_eq_of_le hle with hlt | heq
      · exact Or.inl hlt
      · exact Or.inr ⟨heq.symm, h⟩
  · rintro (h | ⟨heq, hid⟩)
    · refine ⟨le_of_lt h, Or.inl ?_⟩
      intro heq2
      rw [heq2] at h
      exact lt_irrefl _ h
    · exact ⟨le_of_eq heq.symm, Or.inr hid⟩

theorem candLE_trans (a b c : SearchResult) (h1 : candLE a b) (h2 : candLE b c) :
    candLE a c := by
  rw [candLE_iff] at h1 h2 ⊢
  rcases h1 with h1 | ⟨he1, hid1⟩ <;> rcases h2 with h2 | ⟨he2, hid2⟩
  · exact Or.inl (lt_trans h2 h1)
  · exact Or.inl (he2 ▸ h1)
  · exact Or.inl (he1 ▸ h2)
  · exact Or.inr ⟨he1.trans he2, strLt_false_trans _ _ _ hid1 hid2⟩

theorem candLE_antisymm_key (a b : SearchResult) (h1 : candLE a b) (h2 : candLE b a) :
    a.Score = b.Score ∧ a.ID = b.ID := by
  rw [candLE_iff] at h1 h2
  rcases h1 with h1 | ⟨he1, hid1⟩ <;> rcases h2 with h2 | ⟨he2, hid2⟩
  · exact absurd h1 (not_lt_of_lt h2)
  · exact absurd h1 (he2 ▸ lt_irrefl _)
  · exact absurd h2 (he1 ▸ lt_irrefl _)
  · exact ⟨he1, strLt_conn a.ID b.ID hid2 hid1⟩

theorem candLess_of_LE_of_less (y z s : SearchResult) (h1 : candLE y z)
    (h2 : candLess y s = true) : candLess z s = true := by
  rcases Bool.eq_false_or_eq_true (candLess z s) with ht | hf
  · exact ht
  · have := candLE_trans y z s h1 hf
    unfold candLE at this
    rw [this] at h2
    cases h2

/-- Functional single insertion into a ranked list: the element is placed
before the first entry that must come after it, matching the shift loop of
the in-place insertion sort on a sorted prefix. -/
def insertCand (x : SearchResult) : List SearchResult → List SearchResult
  | [] => [x]
  | y :: ys => if candLess y x then x :: y :: ys else y :: insertCand x ys

theorem insertCand_perm (x : SearchResult) (l : List SearchResult) :
    List.Perm (insertCand x l) (x :: l) := by
  induction l with
  | nil => rfl
  | cons y ys ih =>
    rw [insertCand]
    split
    · rfl
    · exact (ih.cons y).trans (List.Perm.swap x y ys)

theorem insertCand_length (x : SearchResult) (l : List SearchResult) :
    (insertCand x l).length = l.length + 1 :=
  (insertCand_perm x l).length_eq

theorem mem_insertCand (a x : SearchResult) (l : List SearchResult)
    (h : a ∈ insertCand x l) : a = x ∨ a ∈ l := by
  have := (insertCand_perm x l).mem_iff.mp h
  simpa using this

theorem insertCand_sorted (x : SearchResult) (l : List SearchResult)
    (h : l.Pairwise candLE) : (insertCand x l).Pairwise candLE := by
  induction l with
  | nil => simp [insertCand, candLE]
  | cons y ys ih =>
    rcases List.pairwise_cons.mp h with ⟨hy, hys⟩
    by_cases hc : candLess y x = true
    · rw [insertCand, if_pos hc]
      refine List.pairwise_cons.mpr ⟨?_, h⟩
      intro b hb
      rcases List.mem_cons.mp hb with rfl | hb2
      · exact candLess_asymm _ _ hc
      · exact candLE_trans x y b (candLess_asymm _ _ hc) (hy b hb2)
    · rw [insertCand, if_neg hc]
      refine List.pairwise_cons.mpr ⟨?_, ih hys⟩
      intro b hb
      rcases mem_insertCand b x ys hb with rfl | hb2
      · exact eq_false_of_ne_true hc
      · exact hy b hb2

theorem insertCand_append_last (x z : SearchResult) (hz : candLess z x = true) :
    ∀ l : List SearchResult, insertCand x (l ++ [z]) = insertCand x l ++ [z] := by
  intro l
  induction l with
  | nil => simp [insertCand, hz]
  | cons y ys ih =>
    simp only [List.cons_append, insertCand]
    split
    · rfl
    · rw [show ys.append [z] = ys ++ [z] from rfl, ih]
      simp

theorem insertCand_of_all_not (x : SearchResult) (l : List SearchResult)
    (h : ∀ y ∈ l, candLess y x = false) : insertCand x l = l ++ [x] := by
  induction l with
  | nil => rfl
  | cons y ys ih =>
    rw [insertCand, if_neg (by rw [h y (List.mem_cons_self y ys)]; exact Bool.false_ne_true),
      ih (fun b hb => h b (List.mem_cons_of_mem y hb))]
    simp

/-- The functional insertion sort: fold the Go loop's insertions from the
left. -/
def sortFun (xs : List SearchResult) : List SearchResult :=
  xs.foldl (fun acc x => insertCand x acc) []

theorem foldl_insertCand_perm (xs : List SearchResult) :
    ∀ acc, List.Perm (xs.foldl (fun acc x => insertCand x acc) acc) (acc ++ xs) := by
  induction xs with
  | nil => intro acc; simp
  | cons x rest ih =>
    intro acc
    rw [List.foldl_cons]
    refine (ih (insertCand x acc)).trans ?_
    have h1 : List.Perm (insertCand x acc ++ rest) ((x :: acc) ++ rest) :=
      (insertCand_perm x acc).append_right rest
    refine h1.trans ?_
    simp only [List.cons_append]
    exact (List.perm_middle).symm

theorem foldl_insertCand_sorted (xs : List SearchResult) :
    ∀ acc, acc.Pairwise candLE →
      (xs.foldl (fun acc x => insertCand x acc) acc).Pairwise candLE := by
  induction xs with
  | nil => intro acc h; exact h
  | cons x rest ih =>
    intro acc h
    exact ih (insertCand x acc) (insertCand_sorted x acc h)

theorem sortFun_perm (xs : List SearchResult) : List.Perm (sortFun xs) xs := by
  simpa using foldl_insertCand_perm xs []

theorem sortFun_sorted (xs : List SearchResult) : (sortFun xs).Pairwise candLE :=
  foldl_insertCand_sorted xs [] (List.Pairwise.nil)

/-! List index helpers used by the sorting proofs. -/

theorem take_set_ge {α : Type} (v : α) :
    ∀ (xs : List α) (k m : Nat), k ≤ m → (xs.set m v).take k = xs.take k := by
  intro xs
  induction xs with
  | nil => intro k m _; simp
  | cons x rest ih =>
    intro k m hk
    cases k with
    | zero => simp
    | succ k' =>
      cases m with
      | zero => omega
      | succ m' =>
        simp only [List.set_cons_succ, List.take_succ_cons]
        rw [ih k' m' (by omega)]

theorem getD_set_ne' {α : Type} (d v : α) (l : List α) (i j : Nat) (h : i ≠ j) :
    (l.set i v).getD j d = l.getD j d := by
  by_cases hj : j < l.length
  · rw [List.getD_eq_getElem _ _ (by rw [List.length_set]; exact hj),
      List.getD_eq_getElem _ _ hj]
    exact List.getElem_set_ne h _
  · rw [List.getD_eq_default _ _ (by rw [List.length_set]; omega),
      List.getD_eq_default _ _ (by omega)]

theorem getD_set_self' {α : Type} (d v : α) (l : List α) (i : Nat) (h : i < l.length) :
    (l.set i v).getD i d = v := by
  rw [List.getD_eq_getElem _ _ (by rw [List.length_set]; exact h)]
  exact List.getElem_set_self _

theorem set_getD_self {α : Type} (d : α) (l : List α) (i : Nat) (h : i < l.length) :
    l.set i (l.getD i d) = l := by
  apply List.ext_getElem (by rw [List.length_set])
  intro n h1 h2
  by_cases hn : i = n
  · subst hn
    rw [List.getElem_set_self, List.getD_eq_getElem _ _ h]
  · exact List.getElem_set_ne hn _

theorem drop_set_self {α : Type} (d v : α) (l : List α) (i : Nat) (h : i < l.length) :
    (l.set i v).drop i = v :: l.drop (i + 1) := by
  rw [List.drop_set, if_neg (lt_irrefl i), Nat.sub_self,
    List.drop_eq_getElem_cons h, List.set_cons_zero]

theorem take_append_slice {α : Type} (l : List α) (a b : Nat) (hab : a ≤ b) :
    l.take a ++ (l.drop a).take (b - a) = l.take b := by
  rw [show b = a + (b - a) from by omega, List.take_add]
  congr 2
  omega

theorem slice_succ_getD {α : Type} (d : α) (l : List α) (a i : Nat) (ha : a ≤ i)
    (hi : i < l.length) :
    (l.drop a).take (i + 1 - a) = (l.drop a).take (i - a) ++ [l.getD i d] := by
  rw [show i + 1 - a = (i - a) + 1 from by omega, List.take_succ]
  congr 1
  rw [List.getElem?_eq_getElem (by simp [List.length_drop]; omega)]
  simp only [Option.toList_some]
  congr 1
  rw [List.getElem_drop, List.getD_eq_getElem _ _ (by omega)]
  congr 1
  omega

/-- The inner loop of `insertionSort` run at position `i` over a sorted
prefix `[left, i)` equals the functional insertion spliced back between the
unchanged borders. -/
theorem insInner_eq (save : SearchResult) :
    ∀ i l left, left ≤ i → i < l.length →
      ((l.drop left).take (i - left)).Pairwise candLE →
      insInner l left save i
        = l.take left ++ insertCand save ((l.drop left).take (i - left)) ++ l.drop (i + 1) := by
  intro i
  induction i using Nat.strong_induction_on with
  | _ i ih =>
    intro l left hle hlen hsort
    rw [insInner]
    split
    · rename_i hcond
      obtain ⟨hlt, hless⟩ := hcond
      have hlen' : i - 1 < (l.set i (l.getD (i - 1) dummySR)).length := by
        rw [List.length_set]; omega
      have hslice : ((l.set i (l.getD (i - 1) dummySR)).drop left).take (i - 1 - left)
          = (l.drop left).take (i - 1 - left) := by
        rw [List.drop_set, if_neg (by omega)]
        exact take_set_ge _ _ _ _ (by omega)
      have hsort' : (((l.set i (l.getD (i - 1) dummySR)).drop left).take (i - 1 - left)).Pairwise
          candLE := by
        rw [hslice]
        refine List.Pairwise.sublist ?_ hsort
        rw [show i - left = (i - 1 - left) + 1 from by omega]
        have := List.take_take (i - 1 - left) ((i - 1 - left) + 1) (l.drop left)
        rw [min_eq_left (by omega)] at this
        rw [← this]
        exact List.take_sublist _ _
      rw [ih (i - 1) (by omega) (l.set i (l.getD (i - 1) dummySR)) left (by omega) hlen' hsort']
      rw [hslice, take_set_ge _ _ _ _ (by omega),
        show i - 1 + 1 = i from by omega,
        drop_set_self dummySR _ l i hlen]
      have hsl : (l.drop left).take (i - left)
          = (l.drop left).take (i - 1 - left) ++ [l.getD (i - 1) dummySR] := by
        have hs := slice_succ_getD dummySR l left (i - 1) (by omega) (by omega)
        rw [show i - 1 + 1 - left = i - left from by omega] at hs
        exact hs
      rw [hsl, insertCand_append_last save (l.getD (i - 1) dummySR) hless]
      simp
    · rename_i hcond
      rw [Decidable.not_and_iff_or_not] at hcond
      have hset : l.set i save = l.take i ++ save :: l.drop (i + 1) := by
        rw [List.set_eq_take_append_cons_drop, if_pos hlen]
      rcases hcond with hile | hlf
      · have : left = i := by omega
        subst this
        rw [hset, Nat.sub_self]
        simp [insertCand]
      · have hlf' : candLess (l.getD (i - 1) dummySR) save = false := by
          rcases Bool.eq_false_or_eq_true (candLess (l.getD (i - 1) dummySR) save) with ht | hf
          · exact absurd ht hlf
          · exact hf
        by_cases hli : left = i
        · subst hli
          rw [hset, Nat.sub_self]
          simp [insertCand]
        · have hlti : left < i := by omega
          have hall : ∀ y ∈ (l.drop left).take (i - left), candLess y save = false := by
            intro y hy
            rcases List.mem_iff_getElem.mp hy with ⟨k, hk, hgy⟩
            have hklen : k < i - left := by
              have := hk
              simp only [List.length_take, List.length_drop, lt_min_iff] at this
              omega
            have hyval : y = l.getD (left + k) dummySR := by
              rw [← hgy, List.getElem_take, List.getElem_drop,
                List.getD_eq_getElem _ _ (by omega)]
            by_cases hklast : k = i - 1 - left
            · rw [hyval, show left + k = i - 1 from by omega]
              exact hlf'
            · have hkle : candLE y (l.getD (i - 1) dummySR) := by
                have hp := List.pairwise_iff_getElem.mp hsort k (i - 1 - left)
                  (by simp only [List.length_take, List.length_drop]; omega)
                  (by simp only [List.length_take, List.length_drop]; omega)
                  (by omega)
                have hb2 : i - 1 - left < ((l.drop left).take (i - left)).length := by
                  simp only [List.length_take, List.length_drop]
                  omega
                have e1 : ((l.drop left).take (i - left))[k] = y := hgy
                have e2 : ((l.drop left).take (i - left))[i - 1 - left] =
                    l.getD (i - 1) dummySR := by
                  rw [List.getElem_take, List.getElem_drop,
                    List.getD_eq_getElem _ _ (by omega)]
                  congr 1
                  omega
                rw [e1, e2] at hp
                exact hp
              rcases Bool.eq_false_or_eq_true (candLess y save) with ht | hf
              · have := candLess_of_LE_of_less y (l.getD (i - 1) dummySR) save hkle ht
                rw [hlf'] at this
                cases this
              · exact hf
          rw [hset, insertCand_of_all_not save _ hall,
            ← take_append_slice l left i (by omega)]
          simp only [List.append_assoc, List.cons_append, List.singleton_append,
            List.nil_append]

theorem getD_drop' {α : Type} (d : α) (l : List α) (n m : Nat) :
    (l.drop n).getD m d = l.getD (n + m) d := by
  by_cases h : n + m < l.length
  · rw [List.getD_eq_getElem _ _ (by simp [List.length_drop]; omega),
      List.getD_eq_getElem _ _ h, List.getElem_drop]
  · rw [List.getD_eq_default _ _ (by simp [List.length_drop]; omega),
      List.getD_eq_default _ _ (by omega)]

theorem getD_take' {α : Type} (d : α) (l : List α) (n k : Nat) (h : k < n) :
    (l.take n).getD k d = l.getD k d := by
  by_cases hk : k < l.length
  · rw [List.getD_eq_getElem _ _ (by simp [List.length_take]; omega),
      List.getD_eq_getElem _ _ hk, List.getElem_take]
  · rw [List.getD_eq_default _ _ (by simp [List.length_take]; omega),
      List.getD_eq_default _ _ (by omega)]

theorem drop_append_exact {α : Type} (A B : List α) (n : Nat) (h : A.length = n) :
    (A ++ B).drop n = B := by
  subst h
  exact List.drop_left A B

theorem take_append_exact {α : Type} (A B : List α) (n : Nat) (h : A.length = n) :
    (A ++ B).take n = A := by
  subst h
  exact List.take_left A B

/-- Splicing a block of the right length between the borders of `l`: the
basic shape of all three sorting algorithms' results. -/
theorem splice_facts (l mid : List SearchResult) (left right : Nat)
    (h1 : left ≤ right) (h2 : right < l.length)
    (hmid : mid.length = right + 1 - left) :
    (l.take left ++ mid ++ l.drop (right + 1)).length = l.length ∧
    (∀ k, k < left ∨ right < k →
      (l.take left ++ mid ++ l.drop (right + 1)).getD k dummySR = l.getD k dummySR) ∧
    ((l.take left ++ mid ++ l.drop (right + 1)).drop left).take (right + 1 - left) = mid := by
  have htl : (l.take left).length = left := by
    rw [List.length_take]
    omega
  refine ⟨?_, ?_, ?_⟩
  · simp only [List.length_append, htl, hmid, List.length_drop]
    omega
  · intro k hk
    rcases hk with hk | hk
    · rw [List.append_assoc, List.getD_append _ _ _ _ (by omega), getD_take' _ _ _ _ hk]
    · rw [List.getD_append_right _ _ _ _ (by simp [htl, hmid]; omega)]
      rw [getD_drop']
      congr 1
      simp only [List.length_append, htl, hmid]
      omega
  · rw [List.append_assoc, drop_append_exact _ _ _ htl, take_append_exact _ _ _ hmid]

/-- Characterization of the outer insertion-sort loop: starting at position
`i` with the prefix `[left, i)` already sorted, the loop folds the
remaining elements `[i, right]` into that prefix. -/
theorem insRangeAux_eq :
    ∀ (k : Nat) (l : List SearchResult) (left i right : Nat),
    right + 1 - i = k → left < i → i ≤ right + 1 → right < l.length →
    ((l.drop left).take (i - left)).Pairwise candLE →
    insRangeAux l left i right
      = l.take left ++ ((l.drop i).take (right + 1 - i)).foldl (fun acc x => insertCand x acc)
          ((l.drop left).take (i - left)) ++ l.drop (right + 1) := by
  intro k
  induction k using Nat.strong_induction_on with
  | _ k ih =>
    intro l left i right hk hli hir hrlen hsort
    rw [insRangeAux]
    by_cases hcont : i ≤ right
    · rw [if_pos hcont]
      have hilen : i < l.length := by omega
      have hslicelen : ((l.drop left).take (i - left)).length = i - left := by
        simp only [List.length_take, List.length_drop]
        omega
      have hinner := insInner_eq (l.getD i dummySR) i l left (by omega) hilen hsort
      set l1 := insInner l (left) (l.getD i dummySR) i with hl1
      have hmidlen : (insertCand (l.getD i dummySR) ((l.drop left).take (i - left))).length
          = i + 1 - left := by
        rw [insertCand_length, hslicelen]
        omega
      have hfront : (l.take left ++ insertCand (l.getD i dummySR)
          ((l.drop left).take (i - left))).length = i + 1 := by
        simp only [List.length_append, List.length_take, hmidlen]
        omega
      have hl1len : l1.length = l.length := by
        rw [hinner]
        simp only [List.length_append, List.length_take, hmidlen, List.length_drop]
        omega
      have hl1drop : l1.drop (i + 1) = l.drop (i + 1) := by
        rw [hinner, List.append_assoc, ← List.append_assoc]
        exact drop_append_exact _ _ _ hfront
      have hl1slice : (l1.drop left).take (i + 1 - left)
          = insertCand (l.getD i dummySR) ((l.drop left).take (i - left)) := by
        rw [hinner, List.append_assoc,
          drop_append_exact _ _ _ (by rw [List.length_take]; omega),
          take_append_exact _ _ _ hmidlen]
      have hstep := ih (right + 1 - (i + 1)) (by omega) l1 left (i + 1) right rfl
        (by omega) (by omega) (by omega)
        (by rw [hl1slice]; exact insertCand_sorted _ _ hsort)
      rw [hstep]
      have hl1take : l1.take left = l.take left := by
        rw [hinner, List.append_assoc]
        exact take_append_exact _ _ _ (by rw [List.length_take]; omega)
      have hl1dropr : l1.drop (right + 1) = l.drop (right + 1) := by
        rw [show right + 1 = (i + 1) + (right - i) from by omega, ← List.drop_drop,
          hl1drop, List.drop_drop]
      have hsplit : (l.drop i).take (right + 1 - i)
          = l.getD i dummySR :: (l.drop (i + 1)).take (right - i) := by
        rw [List.drop_eq_getElem_cons hilen, List.getD_eq_getElem _ _ hilen,
          show right + 1 - i = (right - i) + 1 from by omega, List.take_succ_cons]
      rw [hl1take, hl1drop, hl1dropr, hl1slice, hsplit, List.foldl_cons,
        show right + 1 - (i + 1) = right - i from by omega]
    · rw [if_neg hcont]
      have hi : i = right + 1 := by omega
      subst hi
      rw [Nat.sub_self]
      simp only [List.take_zero, List.foldl_nil]
      rw [take_append_slice l left (right + 1) (by omega)]
      rw [List.take_append_drop]

/-- Embedded `insertionSort` on `[left, right]` equals the functional
insertion sort of the slice, spliced between the unchanged borders. -/
theorem insertionSortRangeGo_eq (l : List SearchResult) (left right : Nat)
    (h1 : left ≤ right) (h2 : right < l.length) :
    insertionSortRangeGo l left right
      = l.take left ++ sortFun ((l.drop left).take (right + 1 - left)) ++ l.drop (right + 1) := by
  unfold insertionSortRangeGo
  have hK := insRangeAux_eq (right + 1 - (left + 1)) l left (left + 1) right rfl
    (by omega) (by omega) h2
    (by
      apply List.pairwise_iff_getElem.mpr
      intro a b ha hb hab
      have : b < 1 := by
        have := hb
        simp only [List.length_take, List.length_drop, lt_min_iff] at this
        omega
      omega)
  rw [hK]
  congr 1
  · congr 1
    have hsplit : (l.drop left).take (right + 1 - left)
        = l.getD left dummySR :: (l.drop (left + 1)).take (right - left) := by
      rw [List.drop_eq_getElem_cons (by omega : left < l.length),
        List.getD_eq_getElem _ _ (by omega),
        show right + 1 - left = (right - left) + 1 from by omega, List.take_succ_cons]
    have hone : (l.drop left).take (left + 1 - left) = [l.getD left dummySR] := by
      rw [show left + 1 - left = 1 from by omega,
        List.drop_eq_getElem_cons (by omega : left < l.length),
        List.getD_eq_getElem _ _ (by omega)]
      rfl
    rw [hsplit, hone, show right + 1 - (left + 1) = right - left from by omega]
    unfold sortFun
    rw [List.foldl_cons]
    rfl

/-- Ranked order on an index range `[a, b)`: no element must come after a
later one. -/
def sortedRange (l : List SearchResult) (a b : Nat) : Prop :=
  ∀ j k, a ≤ j → j < k → k < b → k < l.length →
    candLE (l.getD j dummySR) (l.getD k dummySR)

theorem slice_getD (l : List SearchResult) (left len m : Nat) (hm : m < len)
    (mid : List SearchResult) (hs : (l.drop left).take len = mid) :
    l.getD (left + m) dummySR = mid.getD m dummySR := by
  rw [← hs, getD_take' _ _ _ _ hm, getD_drop']

theorem sortedRange_of_slice (l : List SearchResult) (left right : Nat)
    (mid : List SearchResult) (hmid : mid.length = right + 1 - left)
    (hs : (l.drop left).take (right + 1 - left) = mid)
    (hsort : mid.Pairwise candLE) : sortedRange l left (right + 1) := by
  intro j k hj hjk hk hklen
  have hj2 : j = left + (j - left) := by omega
  have hk2 : k = left + (k - left) := by omega
  rw [hj2, slice_getD l left (right + 1 - left) (j - left) (by omega) mid hs,
    hk2, slice_getD l left (right + 1 - left) (k - left) (by omega) mid hs]
  have hp := List.pairwise_iff_getElem.mp hsort (j - left) (k - left)
    (by omega) (by omega) (by omega)
  rw [List.getD_eq_getElem _ _ (by omega), List.getD_eq_getElem _ _ (by omega)]
  exact hp

theorem insertionSortRangeGo_spec (l : List SearchResult) (left right : Nat)
    (h1 : left ≤ right) (h2 : right < l.length) :
    (insertionSortRangeGo l left right).length = l.length ∧
    (∀ k, k < left ∨ right < k →
      (insertionSortRangeGo l left right).getD k dummySR = l.getD k dummySR) ∧
    List.Perm (((insertionSortRangeGo l left right).drop left).take (right + 1 - left))
      ((l.drop left).take (right + 1 - left)) ∧
    sortedRange (insertionSortRangeGo l left right) left (right + 1) := by
  rw [insertionSortRangeGo_eq l left right h1 h2]
  have hslen : ((l.drop left).take (right + 1 - left)).length = right + 1 - left := by
    simp only [List.length_take, List.length_drop]
    omega
  have hmid : (sortFun ((l.drop left).take (right + 1 - left))).length = right + 1 - left := by
    rw [(sortFun_perm _).length_eq, hslen]
  have hf := splice_facts l (sortFun ((l.drop left).take (right + 1 - left))) left right h1 h2 hmid
  refine ⟨hf.1, hf.2.1, ?_, ?_⟩
  · rw [hf.2.2]
    exact sortFun_perm _
  · exact sortedRange_of_slice _ left right _ hmid hf.2.2 (sortFun_sorted _)

theorem insertionSortRangeGo_full (l : List SearchResult) (h : 1 ≤ l.length) :
    insertionSortRangeGo l 0 (l.length - 1) = sortFun l := by
  rw [insertionSortRangeGo_eq l 0 (l.length - 1) (by omega) (by omega),
    show l.length - 1 + 1 - 0 = l.length from by omega,
    show l.length - 1 + 1 = l.length from by omega]
  simp only [List.take_zero, List.drop_zero, List.nil_append,
    List.take_of_length_le le_rfl, List.drop_length, List.append_nil]

/-! Shell sort: the gap-1 pass is the insertion sort, the other passes are
permutations. -/

theorem gapInner_one (save : SearchResult) :
    ∀ j l, gapInner l 1 save j = insInner l 0 save j := by
  intro j
  induction j using Nat.strong_induction_on with
  | _ j ih =>
    intro l
    rw [gapInner, insInner]
    by_cases hc : 0 < j ∧ candLess (l.getD (j - 1) dummySR) save = true
    · rw [dif_pos ⟨by omega, by omega, hc.2⟩, dif_pos hc]
      exact ih (j - 1) (by omega) _
    · rw [dif_neg (by
        intro hcon
        exact hc ⟨by omega, hcon.2.2⟩), dif_neg hc]

theorem gapPassAux_one (n : Nat) :
    ∀ (k : Nat) (l : List SearchResult) (i : Nat), n - i = k → 1 ≤ i →
      gapPassAux 1 n l i = insRangeAux l 0 i (n - 1) := by
  intro k
  induction k using Nat.strong_induction_on with
  | _ k ih =>
    intro l i hk hi
    rw [gapPassAux, insRangeAux]
    by_cases hc : i < n
    · rw [if_pos hc, if_pos (by omega), gapInner_one]
      exact ih (n - (i + 1)) (by omega) _ (i + 1) rfl (by omega)
    · rw [if_neg hc, if_neg (by omega)]

theorem gapInner_length (gap : Nat) (save : SearchResult) :
    ∀ j l, (gapInner l gap save j).length = l.length := by
  intro j
  induction j using Nat.strong_induction_on with
  | _ j ih =>
    intro l
    rw [gapInner]
    split
    · rename_i hc
      rw [ih (j - gap) (by omega) _, List.length_set]
    · rw [List.length_set]

theorem gapPassAux_length (gap n : Nat) :
    ∀ (k : Nat) (l : List SearchResult) (i : Nat), n - i = k →
      (gapPassAux gap n l i).length = l.length := by
  intro k
  induction k using Nat.strong_induction_on with
  | _ k ih =>
    intro l i hk
    rw [gapPassAux]
    by_cases hc : i < n
    · rw [if_pos hc, ih (n - (i + 1)) (by omega) _ (i + 1) rfl, gapInner_length]
    · rw [if_neg hc]

theorem cons_set_perm (x y : SearchResult) :
    ∀ (t : List SearchResult) (k : Nat), k < t.length →
      List.Perm (x :: t.set k y) (y :: t.set k x) := by
  intro t
  induction t with
  | nil => intro k hk; simp at hk
  | cons z t' ih =>
    intro k hk
    cases k with
    | zero =>
      simp only [List.set_cons_zero]
      exact List.Perm.swap y x t'
    | succ k' =>
      simp only [List.set_cons_succ]
      have h1 : List.Perm (x :: z :: t'.set k' y) (z :: x :: t'.set k' y) :=
        List.Perm.swap z x _
      have h2 : List.Perm (z :: x :: t'.set k' y) (z :: y :: t'.set k' x) :=
        (ih k' (by simpa using hk)).cons z
      have h3 : List.Perm (z :: y :: t'.set k' x) (y :: z :: t'.set k' x) :=
        List.Perm.swap y z _
      exact (h1.trans h2).trans h3

theorem set_set_perm (x : SearchResult) :
    ∀ (l : List SearchResult) (j' j : Nat), j' < j → j < l.length →
      List.Perm ((l.set j (l.getD j' dummySR)).set j' x) (l.set j x) := by
  intro l
  induction l with
  | nil => intro j' j _ hj; simp at hj
  | cons y t ih =>
    intro j' j hj'j hj
    cases j with
    | zero => omega
    | succ jj =>
      cases j' with
      | zero =>
        simp only [List.getD_cons_zero, List.set_cons_succ, List.set_cons_zero]
        exact cons_set_perm x y t jj (by simpa using hj)
      | succ j'' =>
        simp only [List.getD_cons_succ, List.set_cons_succ]
        exact (ih j'' jj (by omega) (by simpa using hj)).cons y

theorem gapInner_perm (gap : Nat) (save : SearchResult) :
    ∀ j l, j < l.length → List.Perm (gapInner l gap save j) (l.set j save) := by
  intro j
  induction j using Nat.strong_induction_on with
  | _ j ih =>
    intro l hj
    rw [gapInner]
    split
    · rename_i hc
      have hrec := ih (j - gap) (by omega) (l.set j (l.getD (j - gap) dummySR))
        (by rw [List.length_set]; omega)
      refine hrec.trans ?_
      exact set_set_perm save l (j - gap) j (by omega) hj
    · exact List.Perm.refl _

theorem gapPassAux_perm (gap n : Nat) :
    ∀ (k : Nat) (l : List SearchResult) (i : Nat), n - i = k → n ≤ l.length →
      List.Perm (gapPassAux gap n l i) l := by
  intro k
  induction k using Nat.strong_induction_on with
  | _ k ih =>
    intro l i hk hn
    rw [gapPassAux]
    by_cases hc : i < n
    · rw [if_pos hc]
      have hi : i < l.length := by omega
      have hrec := ih (n - (i + 1)) (by omega) (gapInner l gap (l.getD i dummySR) i)
        (i + 1) rfl (by rw [gapInner_length]; omega)
      refine hrec.trans ?_
      have := gapInner_perm gap (l.getD i dummySR) i l hi
      rw [set_getD_self dummySR l i hi] at this
      exact this
    · rw [if_neg hc]

theorem shellSortGo_perm (l : List SearchResult) : List.Perm (shellSortGo l) l := by
  unfold shellSortGo
  have h5 := gapPassAux_perm 5 l.length (l.length - 5) l 5 rfl le_rfl
  have h3 := gapPassAux_perm 3 l.length (l.length - 3) (gapPassAux 5 l.length l 5) 3 rfl
    (by rw [gapPassAux_length 5 l.length (l.length - 5) l 5 rfl])
  have h1 := gapPassAux_perm 1 l.length (l.length - 1)
    (gapPassAux 3 l.length (gapPassAux 5 l.length l 5) 3) 1 rfl
    (by rw [gapPassAux_length 3 l.length (l.length - 3) _ 3 rfl,
      gapPassAux_length 5 l.length (l.length - 5) l 5 rfl])
  exact (h1.trans h3).trans h5

theorem shellSortGo_sorted (l : List SearchResult) : (shellSortGo l).Pairwise candLE := by
  unfold shellSortGo
  set X := gapPassAux 3 l.length (gapPassAux 5 l.length l 5) 3 with hX
  have hXlen : X.length = l.length := by
    rw [hX, gapPassAux_length 3 l.length (l.length - 3) _ 3 rfl,
      gapPassAux_length 5 l.length (l.length - 5) l 5 rfl]
  by_cases hn : 1 ≤ l.length
  · rw [gapPassAux_one l.length (l.length - 1) X 1 rfl le_rfl]
    have : insRangeAux X 0 1 (l.length - 1) = insertionSortRangeGo X 0 (l.length - 1) := rfl
    rw [this, ← hXlen, insertionSortRangeGo_full X (by omega)]
    exact sortFun_sorted X
  · have h0 : l.length = 0 := by omega
    have hX0 : X.length = 0 := by rw [hXlen, h0]
    rw [gapPassAux, if_neg (by omega)]
    rw [List.length_eq_zero] at hX0
    rw [hX0]
    exact List.Pairwise.nil

/-! Quicksort: slices, swaps and comparator sign bridges. -/

/-- The sublist of `l` on the index range `[a, b)`. -/
def sliceOf (l : List SearchResult) (a b : Nat) : List SearchResult :=
  (l.drop a).take (b - a)

theorem sliceOf_length (l : List SearchResult) (a b : Nat) (hab : a ≤ b)
    (hb : b ≤ l.length) : (sliceOf l a b).length = b - a := by
  unfold sliceOf
  simp only [List.length_take, List.length_drop]
  omega

theorem sliceOf_getD (l : List SearchResult) (a b k : Nat) (h1 : a ≤ k) (h2 : k < b) :
    (sliceOf l a b).getD (k - a) dummySR = l.getD k dummySR := by
  unfold sliceOf
  rw [getD_take' _ _ _ _ (by omega), getD_drop']
  congr 1
  omega

theorem getD_mem' (set : List SearchResult) (k : Nat) (hk : k < set.length) :
    set.getD k dummySR ∈ set := by
  rw [List.getD_eq_getElem set _ hk]
  exact List.getElem_mem hk

theorem sliceOf_mem (l : List SearchResult) (a b k : Nat) (h1 : a ≤ k) (h2 : k < b)
    (h3 : b ≤ l.length) : l.getD k dummySR ∈ sliceOf l a b := by
  rw [← sliceOf_getD l a b k h1 h2]
  exact getD_mem' _ _ (by rw [sliceOf_length l a b (by omega) h3]; omega)

theorem sliceOf_append (l : List SearchResult) (a b c : Nat) (h1 : a ≤ b) (h2 : b ≤ c) :
    sliceOf l a c = sliceOf l a b ++ sliceOf l b c := by
  unfold sliceOf
  rw [show c - a = (b - a) + (c - b) from by omega, List.take_add]
  congr 1
  rw [List.drop_drop, show a + (b - a) = b from by omega]

theorem sliceOf_congr (l l' : List SearchResult) (a b : Nat)
    (hlen : l'.length = l.length)
    (h : ∀ k, a ≤ k → k < b → l'.getD k dummySR = l.getD k dummySR) :
    sliceOf l' a b = sliceOf l a b := by
  apply List.ext_getElem
  · unfold sliceOf
    simp [hlen]
  · intro n h1 h2
    unfold sliceOf at h1 ⊢
    have hn : n < b - a := by
      have := h1
      simp only [List.length_take, lt_min_iff] at this
      exact this.1
    rw [List.getElem_take, List.getElem_take, List.getElem_drop, List.getElem_drop,
      ← List.getD_eq_getElem l' dummySR, ← List.getD_eq_getElem l dummySR]
    exact h (a + n) (by omega) (by omega)

theorem sortedRange_congr (l l' : List SearchResult) (a b : Nat)
    (hlen : l'.length = l.length)
    (h : ∀ k, a ≤ k → k < b → l'.getD k dummySR = l.getD k dummySR)
    (hs : sortedRange l a b) : sortedRange l' a b := by
  intro j k hj hjk hk hklen
  rw [h j (by omega) (by omega), h k (by omega) hk]
  exact hs j k hj hjk hk (by omega)

theorem take_set_lt {α : Type} (v : α) :
    ∀ (xs : List α) (m k : Nat), m < k → (xs.set m v).take k = (xs.take k).set m v := by
  intro xs
  induction xs with
  | nil => intro m k _; simp
  | cons x rest ih =>
    intro m k hmk
    cases m with
    | zero =>
      cases k with
      | zero => omega
      | succ k' => simp
    | succ m' =>
      cases k with
      | zero => omega
      | succ k' =>
        simp only [List.set_cons_succ, List.take_succ_cons]
        rw [ih m' k' (by omega)]

theorem sliceOf_set (v : SearchResult) (l : List SearchResult) (a b i : Nat)
    (h1 : a ≤ i) (h2 : i < b) :
    sliceOf (l.set i v) a b = (sliceOf l a b).set (i - a) v := by
  unfold sliceOf
  rw [List.drop_set, if_neg (by omega), take_set_lt _ _ _ _ (by omega)]

theorem swapCands_length (l : List SearchResult) (i j : Nat) :
    (swapCands l i j).length = l.length := by
  unfold swapCands
  simp [List.length_set]

theorem swapCands_getD_other (l : List SearchResult) (i j k : Nat) (h1 : k ≠ i)
    (h2 : k ≠ j) : (swapCands l i j).getD k dummySR = l.getD k dummySR := by
  unfold swapCands
  rw [getD_set_ne' _ _ _ _ _ (fun h => h2 h.symm), getD_set_ne' _ _ _ _ _ (fun h => h1 h.symm)]

theorem swapCands_getD_right (l : List SearchResult) (i j : Nat) (hj : j < l.length) :
    (swapCands l i j).getD j dummySR = l.getD i dummySR := by
  unfold swapCands
  rw [getD_set_self' _ _ _ _ (by rw [List.length_set]; exact hj)]

theorem swapCands_getD_left (l : List SearchResult) (i j : Nat) (hi : i < l.length)
    (hij : i ≠ j) : (swapCands l i j).getD i dummySR = l.getD j dummySR := by
  unfold swapCands
  rw [getD_set_ne' _ _ _ _ _ (fun h => hij h.symm), getD_set_self' _ _ _ _ hi]

theorem swapCands_perm :
    ∀ (l : List SearchResult) (i j : Nat), i ≤ j → j < l.length →
      List.Perm (swapCands l i j) l := by
  intro l
  induction l with
  | nil => intro i j _ hj; simp at hj
  | cons y t ih =>
    intro i j hij hj
    by_cases hii : i = j
    · subst hii
      unfold swapCands
      rw [set_getD_self dummySR _ i (by simpa using hj),
        set_getD_self dummySR _ i (by simpa using hj)]
    · cases j with
      | zero => omega
      | succ jj =>
        cases i with
        | zero =>
          show List.Perm (((y :: t).set 0 ((y :: t).getD (jj + 1) dummySR)).set (jj + 1)
            ((y :: t).getD 0 dummySR)) (y :: t)
          simp only [List.getD_cons_succ, List.getD_cons_zero, List.set_cons_zero,
            List.set_cons_succ]
          refine (cons_set_perm (t.getD jj dummySR) y t jj (by simpa using hj)).trans ?_
          rw [set_getD_self dummySR t jj (by simpa using hj)]
        | succ i' =>
          show List.Perm (((y :: t).set (i' + 1) ((y :: t).getD (jj + 1) dummySR)).set (jj + 1)
            ((y :: t).getD (i' + 1) dummySR)) (y :: t)
          simp only [List.getD_cons_succ, List.set_cons_succ]
          exact (ih i' jj (by omega) (by simpa using hj)).cons y

theorem sliceOf_swap_perm (l : List SearchResult) (a b i j : Nat) (h1 : a ≤ i)
    (h2 : i ≤ j) (h3 : j < b) (h4 : b ≤ l.length) :
    List.Perm (sliceOf (swapCands l i j) a b) (sliceOf l a b) := by
  have hj : j < l.length := by omega
  have hgj : l.getD j dummySR = (sliceOf l a b).getD (j - a) dummySR :=
    (sliceOf_getD l a b j (by omega) h3).symm
  have hgi : l.getD i dummySR = (sliceOf l a b).getD (i - a) dummySR :=
    (sliceOf_getD l a b i h1 (by omega)).symm
  unfold swapCands
  rw [sliceOf_set, sliceOf_set, hgj, hgi]
  · have : (sliceOf l a b).set (i - a) ((sliceOf l a b).getD (j - a) dummySR)
        = sliceOf (l.set i (l.getD j dummySR)) a b := by
      rw [sliceOf_set _ _ _ _ _ h1 (by omega), hgj]
    rw [this]
    rw [← this]
    have hswap : ((sliceOf l a b).set (i - a) ((sliceOf l a b).getD (j - a) dummySR)).set
        (j - a) ((sliceOf l a b).getD (i - a) dummySR)
        = swapCands (sliceOf l a b) (i - a) (j - a) := rfl
    rw [hswap]
    exact swapCands_perm (sliceOf l a b) (i - a) (j - a) (by omega)
      (by rw [sliceOf_length l a b (by omega) h4]; omega)
  · omega
  · omega
  · omega
  · omega

/-- Comparator sign of the element at index `k` against the pivot key. -/
def cmpAt (ps : ℚ) (pid : List Nat) (l : List SearchResult) (k : Nat) : Int :=
  compareScoreAndID (l.getD k dummySR).Score (l.getD k dummySR).ID ps pid

theorem compareScoreAndID_self (s : ℚ) (id : List Nat) :
    compareScoreAndID s id s id = 0 := by
  unfold compareScoreAndID
  simp [lt_irrefl, strLt_irrefl]

theorem cmp_pos_iff (e : SearchResult) (ps : ℚ) (pid : List Nat) :
    compareScoreAndID e.Score e.ID ps pid > 0 ↔
      ps < e.Score ∨ (e.Score = ps ∧ strLt e.ID pid = true) := by
  unfold compareScoreAndID
  split_ifs with h1 h2 h3 h4
  · simp only [gt_iff_lt]
    exact ⟨fun _ => Or.inl h1, fun _ => by omega⟩
  · constructor
    · intro h; omega
    · rintro (h | ⟨he, _⟩)
      · exact absurd h (not_lt_of_lt h2)
      · rw [he] at h2; exact absurd h2 (lt_irrefl ps)
  · have heq : e.Score = ps := le_antisymm (not_lt.mp h1) (not_lt.mp h2)
    exact ⟨fun _ => Or.inr ⟨heq, h3⟩, fun _ => by omega⟩
  · constructor
    · intro h; omega
    · rintro (h | ⟨he, hid⟩)
      · exact absurd h h1
      · rw [strLt_asymm pid e.ID h4] at hid; cases hid
  · constructor
    · intro h; omega
    · rintro (h | ⟨he, hid⟩)
      · exact absurd h h1
      · exact absurd hid h3

theorem cmp_neg_iff (e : SearchResult) (ps : ℚ) (pid : List Nat) :
    compareScoreAndID e.Score e.ID ps pid < 0 ↔
      e.Score < ps ∨ (e.Score = ps ∧ strLt pid e.ID = true) := by
  unfold compareScoreAndID
  split_ifs with h1 h2 h3 h4
  · constructor
    · intro h; omega
    · rintro (h | ⟨he, _⟩)
      · exact absurd h1 (not_lt_of_lt h)
      · rw [he] at h1; exact absurd h1 (lt_irrefl ps)
  · exact ⟨fun _ => Or.inl h2, fun _ => by omega⟩
  · constructor
    · intro h; omega
    · rintro (h | ⟨he, hid⟩)
      · exact absurd h h2
      · rw [strLt_asymm e.ID pid h3] at hid; cases hid
  · have heq : e.Score = ps := le_antisymm (not_lt.mp h1) (not_lt.mp h2)
    exact ⟨fun _ => Or.inr ⟨heq, h4⟩, fun _ => by omega⟩
  · constructor
    · intro h; omega
    · rintro (h | ⟨he, hid⟩)
      · exact absurd h h2
      · exact absurd hid h4

theorem cmp_zero_iff (e : SearchResult) (ps : ℚ) (pid : List Nat) :
    compareScoreAndID e.Score e.ID ps pid = 0 ↔ e.Score = ps ∧ e.ID = pid := by
  unfold compareScoreAndID
  split_ifs with h1 h2 h3 h4
  · constructor
    · intro h; simp at h
    · rintro ⟨he, _⟩
      rw [he] at h1; exact absurd h1 (lt_irrefl ps)
  · constructor
    · intro h; simp at h
    · rintro ⟨he, _⟩
      rw [he] at h2; exact absurd h2 (lt_irrefl ps)
  · constructor
    · intro h; simp at h
    · rintro ⟨he, hid⟩
      rw [hid, strLt_irrefl] at h3
      cases h3
  · constructor
    · intro h; simp at h
    · rintro ⟨he, hid⟩
      rw [hid, strLt_irrefl] at h4
      cases h4
  · have heq : e.Score = ps := le_antisymm (not_lt.mp h1) (not_lt.mp h2)
    refine ⟨fun _ => ⟨heq, ?_⟩, fun _ => rfl⟩
    exact strLt_conn e.ID pid (eq_false_of_ne_true h3) (eq_false_of_ne_true h4)

theorem candLE_of_pos_zero (a b : SearchResult) (ps : ℚ) (pid : List Nat)
    (ha : compareScoreAndID a.Score a.ID ps pid > 0)
    (hb : compareScoreAndID b.Score b.ID ps pid = 0) : candLE a b := by
  rw [candLE_iff]
  have hA := (cmp_pos_iff a ps pid).mp ha
  have hB := (cmp_zero_iff b ps pid).mp hb
  rcases hA with hA | ⟨heA, hidA⟩
  · exact Or.inl (hB.1 ▸ hA)
  · refine Or.inr ⟨by rw [heA, hB.1], ?_⟩
    rw [hB.2]
    exact strLt_asymm a.ID pid hidA

theorem candLE_of_pos_neg (a b : SearchResult) (ps : ℚ) (pid : List Nat)
    (ha : compareScoreAndID a.Score a.ID ps pid > 0)
    (hb : compareScoreAndID b.Score b.ID ps pid < 0) : candLE a b := by
  rw [candLE_iff]
  have hA := (cmp_pos_iff a ps pid).mp ha
  have hB := (cmp_neg_iff b ps pid).mp hb
  rcases hA with hA | ⟨heA, hidA⟩ <;> rcases hB with hB | ⟨heB, hidB⟩
  · exact Or.inl (lt_trans hB hA)
  · exact Or.inl (heB ▸ hA)
  · exact Or.inl (heA ▸ hB)
  · refine Or.inr ⟨by rw [heA, heB], ?_⟩
    rcases Bool.eq_false_or_eq_true (strLt b.ID a.ID) with ht | hf
    · have := strLt_trans pid b.ID a.ID hidB ht
      rw [strLt_asymm a.ID pid hidA] at this
      cases this
    · exact hf

theorem candLE_of_zero_neg (a b : SearchResult) (ps : ℚ) (pid : List Nat)
    (ha : compareScoreAndID a.Score a.ID ps pid = 0)
    (hb : compareScoreAndID b.Score b.ID ps pid < 0) : candLE a b := by
  rw [candLE_iff]
  have hA := (cmp_zero_iff a ps pid).mp ha
  have hB := (cmp_neg_iff b ps pid).mp hb
  rcases hB with hB | ⟨heB, hidB⟩
  · exact Or.inl (hA.1 ▸ hB)
  · refine Or.inr ⟨by rw [hA.1, heB], ?_⟩
    rw [hA.2]
    exact strLt_asymm pid b.ID hidB

theorem candLE_of_cmp_zero_zero (a b : SearchResult) (ps : ℚ) (pid : List Nat)
    (ha : compareScoreAndID a.Score a.ID ps pid = 0)
    (hb : compareScoreAndID b.Score b.ID ps pid = 0) : candLE a b := by
  have hA := (cmp_zero_iff a ps pid).mp ha
  have hB := (cmp_zero_iff b ps pid).mp hb
  rw [candLE_iff]
  exact Or.inr ⟨by rw [hA.1, hB.1], by rw [hA.2, hB.2, strLt_irrefl]⟩

theorem cmpAt_congr (ps : ℚ) (pid : List Nat) (l' l : List SearchResult) (k k' : Nat)
    (h : l'.getD k dummySR = l.getD k' dummySR) :
    cmpAt ps pid l' k = cmpAt ps pid l k' := by
  unfold cmpAt
  rw [h]

/-- Full invariant of the partition loop: region bounds and comparator
classes, slice permutation and untouched borders. -/
theorem ptnLoop_spec (ps : ℚ) (pid : List Nat) (low high : Nat) :
    ∀ (m : Nat) (l : List SearchResult) (lt i gt : Nat), gt - i = m →
    low ≤ lt → lt < i → i ≤ gt → gt ≤ high + 1 → high < l.length →
    (∀ k, low ≤ k → k < lt → cmpAt ps pid l k > 0) →
    (∀ k, lt ≤ k → k < i → cmpAt ps pid l k = 0) →
    (∀ k, gt ≤ k → k ≤ high → cmpAt ps pid l k < 0) →
    (ptnLoop ps pid l lt i gt).1.length = l.length ∧
    (∀ k, k < low ∨ high < k →
      (ptnLoop ps pid l lt i gt).1.getD k dummySR = l.getD k dummySR) ∧
    List.Perm (sliceOf (ptnLoop ps pid l lt i gt).1 low (high + 1))
      (sliceOf l low (high + 1)) ∧
    low ≤ (ptnLoop ps pid l lt i gt).2.1 ∧ lt ≤ (ptnLoop ps pid l lt i gt).2.1 ∧
    (ptnLoop ps pid l lt i gt).2.1 < (ptnLoop ps pid l lt i gt).2.2 ∧
    (ptnLoop ps pid l lt i gt).2.2 ≤ gt ∧
    (∀ k, low ≤ k → k < (ptnLoop ps pid l lt i gt).2.1 →
      cmpAt ps pid (ptnLoop ps pid l lt i gt).1 k > 0) ∧
    (∀ k, (ptnLoop ps pid l lt i gt).2.1 ≤ k → k < (ptnLoop ps pid l lt i gt).2.2 →
      cmpAt ps pid (ptnLoop ps pid l lt i gt).1 k = 0) ∧
    (∀ k, (ptnLoop ps pid l lt i gt).2.2 ≤ k → k ≤ high →
      cmpAt ps pid (ptnLoop ps pid l lt i gt).1 k < 0) := by
  intro m
  induction m using Nat.strong_induction_on with
  | _ m ih =>
    intro l lt i gt hm hlow hlti hile hgt hhigh hc1 hc2 hc3
    rw [ptnLoop]
    by_cases hig : i < gt
    · rw [if_pos hig]
      by_cases hpos : compareScoreAndID (l.getD i dummySR).Score (l.getD i dummySR).ID ps pid > 0
      · rw [if_pos hpos]
        have hswlen : (swapCands l lt i).length = l.length := swapCands_length l lt i
        have hgetlt : (swapCands l lt i).getD lt dummySR = l.getD i dummySR := by
          by_cases heq : lt = i
          · subst heq
            rw [swapCands_getD_right l lt lt (by omega)]
          · exact swapCands_getD_left l lt i (by omega) heq
        have hgeti : (swapCands l lt i).getD i dummySR = l.getD lt dummySR :=
          swapCands_getD_right l lt i (by omega)
        have hc1' : ∀ k, low ≤ k → k < lt + 1 → cmpAt ps pid (swapCands l lt i) k > 0 := by
          intro k hk1 hk2
          by_cases hk : k = lt
          · subst hk
            rw [cmpAt_congr ps pid _ l k i hgetlt]
            exact hpos
          · rw [cmpAt_congr ps pid _ l k k (swapCands_getD_other l lt i k hk (by omega))]
            exact hc1 k hk1 (by omega)
        have hc2' : ∀ k, lt + 1 ≤ k → k < i + 1 → cmpAt ps pid (swapCands l lt i) k = 0 := by
          intro k hk1 hk2
          by_cases hk : k = i
          · subst hk
            rw [cmpAt_congr ps pid _ l k lt hgeti]
            exact hc2 lt le_rfl hlti
          · rw [cmpAt_congr ps pid _ l k k (swapCands_getD_other l lt i k (by omega) hk)]
            exact hc2 k (by omega) (by omega)
        have hc3' : ∀ k, gt ≤ k → k ≤ high → cmpAt ps pid (swapCands l lt i) k < 0 := by
          intro k hk1 hk2
          rw [cmpAt_congr ps pid _ l k k (swapCands_getD_other l lt i k (by omega) (by omega))]
          exact hc3 k hk1 hk2
        have hrec := ih (gt - (i + 1)) (by omega) (swapCands l lt i) (lt + 1) (i + 1) gt
          rfl (by omega) (by omega) (by omega) hgt (by rw [hswlen]; exact hhigh)
          hc1' hc2' hc3'
        refine ⟨hrec.1.trans hswlen, ?_, ?_, by omega, by omega, hrec.2.2.2.2.2.1,
          hrec.2.2.2.2.2.2.1, hrec.2.2.2.2.2.2.2.1, hrec.2.2.2.2.2.2.2.2.1,
          hrec.2.2.2.2.2.2.2.2.2⟩
        · intro k hk
          rw [hrec.2.1 k hk, swapCands_getD_other l lt i k (by omega) (by omega)]
        · exact hrec.2.2.1.trans
            (sliceOf_swap_perm l low (high + 1) lt i (by omega) (by omega) (by omega)
              (by omega))
      · rw [if_neg hpos]
        by_cases hneg : compareScoreAndID (l.getD i dummySR).Score (l.getD i dummySR).ID
            ps pid < 0
        · rw [if_pos hneg]
          have hget1 : (swapCands l i (gt - 1)).getD (gt - 1) dummySR = l.getD i dummySR :=
            swapCands_getD_right l i (gt - 1) (by omega)
          have hc1' : ∀ k, low ≤ k → k < lt → cmpAt ps pid (swapCands l i (gt - 1)) k > 0 := by
            intro k hk1 hk2
            rw [cmpAt_congr ps pid _ l k k
              (swapCands_getD_other l i (gt - 1) k (by omega) (by omega))]
            exact hc1 k hk1 hk2
          have hc2' : ∀ k, lt ≤ k → k < i → cmpAt ps pid (swapCands l i (gt - 1)) k = 0 := by
            intro k hk1 hk2
            rw [cmpAt_congr ps pid _ l k k
              (swapCands_getD_other l i (gt - 1) k (by omega) (by omega))]
            exact hc2 k hk1 hk2
          have hc3' : ∀ k, gt - 1 ≤ k → k ≤ high →
              cmpAt ps pid (swapCands l i (gt - 1)) k < 0 := by
            intro k hk1 hk2
            by_cases hk : k = gt - 1
            · subst hk
              rw [cmpAt_congr ps pid _ l (gt - 1) i hget1]
              exact hneg
            · rw [cmpAt_congr ps pid _ l k k
                (swapCands_getD_other l i (gt - 1) k (by omega) hk)]
              exact hc3 k (by omega) hk2
          have hrec := ih (gt - 1 - i) (by omega) (swapCands l i (gt - 1)) lt i (gt - 1)
            rfl hlow hlti (by omega) (by omega)
            (by rw [swapCands_length]; exact hhigh) hc1' hc2' hc3'
          refine ⟨hrec.1.trans (swapCands_length l i (gt - 1)), ?_, ?_, hrec.2.2.2.1,
            hrec.2.2.2.2.1, hrec.2.2.2.2.2.1, by omega, hrec.2.2.2.2.2.2.2.1,
            hrec.2.2.2.2.2.2.2.2.1, hrec.2.2.2.2.2.2.2.2.2⟩
          · intro k hk
            rw [hrec.2.1 k hk, swapCands_getD_other l i (gt - 1) k (by omega) (by omega)]
          · exact hrec.2.2.1.trans
              (sliceOf_swap_perm l low (high + 1) i (gt - 1) (by omega) (by omega)
                (by omega) (by omega))
        · rw [if_neg hneg]
          have hzero : compareScoreAndID (l.getD i dummySR).Score (l.getD i dummySR).ID
              ps pid = 0 := by omega
          have hc2' : ∀ k, lt ≤ k → k < i + 1 → cmpAt ps pid l k = 0 := by
            intro k hk1 hk2
            by_cases hk : k = i
            · subst hk
              exact hzero
            · exact hc2 k hk1 (by omega)
          exact ih (gt - (i + 1)) (by omega) l lt (i + 1) gt rfl hlow (by omega)
            (by omega) hgt hhigh hc1 hc2' hc3
    · rw [if_neg hig]
      refine ⟨rfl, fun k _ => rfl, List.Perm.refl _, hlow, le_rfl,
        (show lt < gt by omega), le_rfl, hc1, ?_, hc3⟩
      intro k hk1 hk2
      have hk2' : k < gt := hk2
      exact hc2 k hk1 (by omega)

theorem mem_sliceOf_iff (x : SearchResult) (l : List SearchResult) (a b : Nat)
    (hb : b ≤ l.length) (hx : x ∈ sliceOf l a b) :
    ∃ k, a ≤ k ∧ k < b ∧ l.getD k dummySR = x := by
  rcases List.mem_iff_getElem.mp hx with ⟨n, hn, hget⟩
  have hn2 : n < b - a := by
    have h := hn
    unfold sliceOf at h
    simp only [List.length_take, List.length_drop, lt_min_iff] at h
    omega
  refine ⟨a + n, by omega, by omega, ?_⟩
  rw [← hget, ← List.getD_eq_getElem _ dummySR hn]
  have h2 := sliceOf_getD l a b (a + n) (by omega) (by omega)
  rw [show a + n - a = n from by omega] at h2
  exact h2.symm

/-- `partition3Way` on a non-trivial range: the result splits `[low, high]`
into strictly-before / equal / strictly-after regions relative to the
pivot's key, permuting the slice and leaving the borders untouched. -/
theorem partition3Way_spec (l : List SearchResult) (low high : Nat)
    (hlh : low < high) (hlen : high < l.length) :
    ∃ l1 lt gt, partition3Way l low high = (l1, lt, gt) ∧
      l1.length = l.length ∧
      (∀ k, k < low ∨ high < k → l1.getD k dummySR = l.getD k dummySR) ∧
      List.Perm (sliceOf l1 low (high + 1)) (sliceOf l low (high + 1)) ∧
      low ≤ lt ∧ lt ≤ gt ∧ gt ≤ high ∧
      (∀ k, low ≤ k → k < lt →
        cmpAt (l.getD low dummySR).Score (l.getD low dummySR).ID l1 k > 0) ∧
      (∀ k, lt ≤ k → k ≤ gt →
        cmpAt (l.getD low dummySR).Score (l.getD low dummySR).ID l1 k = 0) ∧
      (∀ k, gt < k → k ≤ high →
        cmpAt (l.getD low dummySR).Score (l.getD low dummySR).ID l1 k < 0) := by
  have hinit2 : ∀ k, low ≤ k → k < low + 1 →
      cmpAt (l.getD low dummySR).Score (l.getD low dummySR).ID l k = 0 := by
    intro k hk1 hk2
    have hk : k = low := by omega
    subst hk
    exact compareScoreAndID_self _ _
  have hP := ptnLoop_spec (l.getD low dummySR).Score (l.getD low dummySR).ID low high
    (high + 1 - (low + 1)) l low (low + 1) (high + 1) rfl le_rfl (by omega) (by omega)
    le_rfl hlen (fun k hk1 hk2 => absurd hk2 (by omega)) hinit2
    (fun k hk1 hk2 => absurd hk1 (by omega))
  set r := ptnLoop (l.getD low dummySR).Score (l.getD low dummySR).ID l low (low + 1)
    (high + 1) with hr
  refine ⟨r.1, r.2.1, r.2.2 - 1, rfl, hP.1, hP.2.1, hP.2.2.1, hP.2.2.2.1, ?_, ?_, ?_, ?_, ?_⟩
  · have h1 := hP.2.2.2.2.2.1
    omega
  · have h1 := hP.2.2.2.2.2.2.1
    have h2 := hP.2.2.2.2.2.1
    omega
  · exact hP.2.2.2.2.2.2.2.1
  · intro k hk1 hk2
    exact hP.2.2.2.2.2.2.2.2.1 k hk1 (by
      have h1 := hP.2.2.2.2.2.1
      omega)
  · intro k hk1 hk2
    exact hP.2.2.2.2.2.2.2.2.2 k (by
      have h1 := hP.2.2.2.2.2.1
      omega) hk2

/-- Assembly of the two recursively sorted ranges around the pivot region
into one sorted range. -/
theorem qspec_assemble (ps : ℚ) (pid : List Nat) (l1 rB : List SearchResult)
    (low lt gt high : Nat)
    (hlow : low ≤ lt) (hltgt : lt ≤ gt) (hgth : gt ≤ high) (hhigh : high < l1.length)
    (hBlen : rB.length = l1.length)
    (hpermL : List.Perm (sliceOf rB low lt) (sliceOf l1 low lt))
    (hpermM : List.Perm (sliceOf rB lt (gt + 1)) (sliceOf l1 lt (gt + 1)))
    (hpermR : List.Perm (sliceOf rB (gt + 1) (high + 1)) (sliceOf l1 (gt + 1) (high + 1)))
    (hsortL : sortedRange rB low lt)
    (hsortR : sortedRange rB (gt + 1) (high + 1))
    (hc1 : ∀ k, low ≤ k → k < lt → cmpAt ps pid l1 k > 0)
    (hc2 : ∀ k, lt ≤ k → k ≤ gt → cmpAt ps pid l1 k = 0)
    (hc3 : ∀ k, gt < k → k ≤ high → cmpAt ps pid l1 k < 0) :
    List.Perm (sliceOf rB low (high + 1)) (sliceOf l1 low (high + 1)) ∧
    sortedRange rB low (high + 1) := by
  have hc1B : ∀ k, low ≤ k → k < lt → cmpAt ps pid rB k > 0 := by
    intro k hk1 hk2
    have hmem : rB.getD k dummySR ∈ sliceOf rB low lt :=
      sliceOf_mem rB low lt k hk1 hk2 (by omega)
    have hmem2 := hpermL.mem_iff.mp hmem
    rcases mem_sliceOf_iff _ l1 low lt (by omega) hmem2 with ⟨k2, hk21, hk22, hk2eq⟩
    rw [cmpAt_congr ps pid rB l1 k k2 hk2eq.symm]
    exact hc1 k2 hk21 hk22
  have hc2B : ∀ k, lt ≤ k → k ≤ gt → cmpAt ps pid rB k = 0 := by
    intro k hk1 hk2
    have hmem : rB.getD k dummySR ∈ sliceOf rB lt (gt + 1) :=
      sliceOf_mem rB lt (gt + 1) k hk1 (by omega) (by omega)
    have hmem2 := hpermM.mem_iff.mp hmem
    rcases mem_sliceOf_iff _ l1 lt (gt + 1) (by omega) hmem2 with ⟨k2, hk21, hk22, hk2eq⟩
    rw [cmpAt_congr ps pid rB l1 k k2 hk2eq.symm]
    exact hc2 k2 hk21 (by omega)
  have hc3B : ∀ k, gt < k → k ≤ high → cmpAt ps pid rB k < 0 := by
    intro k hk1 hk2
    have hmem : rB.getD k dummySR ∈ sliceOf rB (gt + 1) (high + 1) :=
      sliceOf_mem rB (gt + 1) (high + 1) k (by omega) (by omega) (by omega)
    have hmem2 := hpermR.mem_iff.mp hmem
    rcases mem_sliceOf_iff _ l1 (gt + 1) (high + 1) (by omega) hmem2 with ⟨k2, hk21, hk22, hk2eq⟩
    rw [cmpAt_congr ps pid rB l1 k k2 hk2eq.symm]
    exact hc3 k2 (by omega) (by omega)
  constructor
  · rw [sliceOf_append rB low lt (high + 1) hlow (by omega),
      sliceOf_append rB lt (gt + 1) (high + 1) (by omega) (by omega),
      sliceOf_append l1 low lt (high + 1) hlow (by omega),
      sliceOf_append l1 lt (gt + 1) (high + 1) (by omega) (by omega)]
    exact hpermL.append (hpermM.append hpermR)
  · intro j k hj hjk hk hklen
    rcases Nat.lt_or_ge j lt with hjL | hjL
    · rcases Nat.lt_or_ge k lt with hkL | hkL
      · exact hsortL j k hj hjk hkL hklen
      · rcases Nat.lt_or_ge k (gt + 1) with hkM | hkM
        · exact candLE_of_pos_zero _ _ ps pid (hc1B j hj hjL) (hc2B k hkL (by omega))
        · exact candLE_of_pos_neg _ _ ps pid (hc1B j hj hjL) (hc3B k (by omega) (by omega))
    · rcases Nat.lt_or_ge j (gt + 1) with hjM | hjM
      · rcases Nat.lt_or_ge k (gt + 1) with hkM | hkM
        · exact candLE_of_cmp_zero_zero _ _ ps pid (hc2B j hjL (by omega))
            (hc2B k (by omega) (by omega))
        · exact candLE_of_zero_neg _ _ ps pid (hc2B j hjL (by omega))
            (hc3B k (by omega) (by omega))
      · exact hsortR j k hjM hjk hk hklen

theorem quickSortGo_of_not_lt (l : List SearchResult) (low high : Nat)
    (h : ¬ low < high) : quickSortGo l low high = l := by
  rw [quickSortGo]
  exact dif_neg h

theorem quickSortGo_eq (l : List SearchResult) (low high : Nat) :
    quickSortGo l low high =
      if low < high then
        if high - low < 10 then insertionSortRangeGo l low high
        else
          if (partition3Way l low high).2.1 - low <
              high - (partition3Way l low high).2.2 then
            quickSortGo (quickSortGo (partition3Way l low high).1 low
              ((partition3Way l low high).2.1 - 1))
              ((partition3Way l low high).2.2 + 1) high
          else
            quickSortGo (quickSortGo (partition3Way l low high).1
              ((partition3Way l low high).2.2 + 1) high) low
              ((partition3Way l low high).2.1 - 1)
      else l := by
  conv_lhs => rw [quickSortGo]
  rfl

/-- Combining step for `quickSortGo`: if after partitioning the two outer
regions have been sorted (in either order), the whole range is sorted. -/
theorem qsg_combine (ps : ℚ) (pid : List Nat) (l l1 rB : List SearchResult)
    (low lt gt high : Nat)
    (hlowlt : low ≤ lt) (hltgt : lt ≤ gt) (hgth : gt ≤ high) (hhigh : high < l.length)
    (hlen1 : l1.length = l.length)
    (hout1 : ∀ k, k < low ∨ high < k → l1.getD k dummySR = l.getD k dummySR)
    (hperm1 : List.Perm (sliceOf l1 low (high + 1)) (sliceOf l low (high + 1)))
    (hc1 : ∀ k, low ≤ k → k < lt → cmpAt ps pid l1 k > 0)
    (hc2 : ∀ k, lt ≤ k → k ≤ gt → cmpAt ps pid l1 k = 0)
    (hc3 : ∀ k, gt < k → k ≤ high → cmpAt ps pid l1 k < 0)
    (hBlen : rB.length = l1.length)
    (houtB : ∀ k, ((k < low ∨ high < k) ∨ (lt ≤ k ∧ k ≤ gt)) →
      rB.getD k dummySR = l1.getD k dummySR)
    (hpermL : List.Perm (sliceOf rB low lt) (sliceOf l1 low lt))
    (hpermR : List.Perm (sliceOf rB (gt + 1) (high + 1)) (sliceOf l1 (gt + 1) (high + 1)))
    (hsortL : sortedRange rB low lt)
    (hsortR : sortedRange rB (gt + 1) (high + 1)) :
    rB.length = l.length ∧
    (∀ k, k < low ∨ high < k → rB.getD k dummySR = l.getD k dummySR) ∧
    List.Perm (sliceOf rB low (high + 1)) (sliceOf l low (high + 1)) ∧
    sortedRange rB low (high + 1) := by
  have hEqM : sliceOf rB lt (gt + 1) = sliceOf l1 lt (gt + 1) :=
    sliceOf_congr l1 rB lt (gt + 1) hBlen
      (fun k hk1 hk2 => houtB k (Or.inr ⟨hk1, by omega⟩))
  have hpermM : List.Perm (sliceOf rB lt (gt + 1)) (sliceOf l1 lt (gt + 1)) := by
    rw [hEqM]
  have hA := qspec_assemble ps pid l1 rB low lt gt high hlowlt hltgt hgth
    (by omega) hBlen hpermL hpermM hpermR hsortL hsortR hc1 hc2 hc3
  refine ⟨by omega, ?_, hA.1.trans hperm1, hA.2⟩
  intro k hk
  rw [houtB k (Or.inl hk), hout1 k hk]

/-- Full specification of the three-way quicksort on a range: length is
preserved, entries outside `[low, high]` are untouched, the slice is
permuted and ends up sorted under the comparator order. -/
theorem quickSortGo_spec : ∀ (m : Nat) (l : List SearchResult) (low high : Nat),
    high + 1 - low = m → high < l.length →
    (quickSortGo l low high).length = l.length ∧
    (∀ k, k < low ∨ high < k →
      (quickSortGo l low high).getD k dummySR = l.getD k dummySR) ∧
    List.Perm (sliceOf (quickSortGo l low high) low (high + 1))
      (sliceOf l low (high + 1)) ∧
    sortedRange (quickSortGo l low high) low (high + 1) := by
  intro m
  induction m using Nat.strong_induction_on with
  | _ m ih =>
    intro l low high hm hhigh
    by_cases hlh : low < high
    · rw [quickSortGo_eq l low high, if_pos hlh]
      by_cases hsz : high - low < 10
      · rw [if_pos hsz]
        have hI := insertionSortRangeGo_spec l low high (le_of_lt hlh) hhigh
        exact ⟨hI.1, hI.2.1, hI.2.2.1, hI.2.2.2⟩
      · rw [if_neg hsz]
        obtain ⟨l1, lt, gt, heq, hlen1, hout1, hperm1, hlowlt, hltgt, hgth, hc1, hc2, hc3⟩ :=
          partition3Way_spec l low high hlh hhigh
        have h1 : (partition3Way l low high).1 = l1 := by rw [heq]
        have h21 : (partition3Way l low high).2.1 = lt := by rw [heq]
        have h22 : (partition3Way l low high).2.2 = gt := by rw [heq]
        rw [h1, h21, h22]
        by_cases hbr : lt - low < high - gt
        · rw [if_pos hbr]
          set lB := quickSortGo l1 low (lt - 1) with hlBdef
          have hLf : lB.length = l1.length ∧
              (∀ k, k < low ∨ lt ≤ k → lB.getD k dummySR = l1.getD k dummySR) ∧
              List.Perm (sliceOf lB low lt) (sliceOf l1 low lt) ∧
              sortedRange lB low lt := by
            by_cases hll : low < lt
            · have hS := ih (lt - 1 + 1 - low) (by omega) l1 low (lt - 1) rfl (by omega)
              rw [show lt - 1 + 1 = lt from by omega] at hS
              exact ⟨hS.1, fun k hk => hS.2.1 k (by omega), hS.2.2.1, hS.2.2.2⟩
            · rw [hlBdef, quickSortGo_of_not_lt l1 low (lt - 1) (by omega)]
              exact ⟨rfl, fun k _ => rfl, List.Perm.refl _,
                fun j k hj hjk hk _ => absurd hjk (by omega)⟩
          obtain ⟨hLlen, hLout, hLperm, hLsort⟩ := hLf
          set rB := quickSortGo lB (gt + 1) high with hrBdef
          have hRf : rB.length = lB.length ∧
              (∀ k, k ≤ gt ∨ high < k → rB.getD k dummySR = lB.getD k dummySR) ∧
              List.Perm (sliceOf rB (gt + 1) (high + 1))
                (sliceOf lB (gt + 1) (high + 1)) ∧
              sortedRange rB (gt + 1) (high + 1) := by
            by_cases hgh : gt < high
            · have hS := ih (high + 1 - (gt + 1)) (by omega) lB (gt + 1) high rfl (by omega)
              exact ⟨hS.1, fun k hk => hS.2.1 k (by omega), hS.2.2.1, hS.2.2.2⟩
            · rw [hrBdef, quickSortGo_of_not_lt lB (gt + 1) high (by omega)]
              exact ⟨rfl, fun k _ => rfl, List.Perm.refl _,
                fun j k hj hjk hk _ => absurd hjk (by omega)⟩
          obtain ⟨hRlen, hRout, hRperm, hRsort⟩ := hRf
          have hEqL : sliceOf rB low lt = sliceOf lB low lt :=
            sliceOf_congr lB rB low lt hRlen
              (fun k hk1 hk2 => hRout k (by omega))
          have hEqR : sliceOf lB (gt + 1) (high + 1) = sliceOf l1 (gt + 1) (high + 1) :=
            sliceOf_congr l1 lB (gt + 1) (high + 1) hLlen
              (fun k hk1 hk2 => hLout k (by omega))
          exact qsg_combine (l.getD low dummySR).Score (l.getD low dummySR).ID l l1 rB
            low lt gt high hlowlt hltgt hgth hhigh hlen1 hout1 hperm1 hc1 hc2 hc3
            (hRlen.trans hLlen)
            (fun k hk => by
              rw [hRout k (by omega), hLout k (by omega)])
            (by rw [hEqL]; exact hLperm)
            (by rw [← hEqR]; exact hRperm)
            (sortedRange_congr lB rB low lt hRlen
              (fun k hk1 hk2 => hRout k (by omega)) hLsort)
            hRsort
        · rw [if_neg hbr]
          set lB := quickSortGo l1 (gt + 1) high with hlBdef
          have hLf : lB.length = l1.length ∧
              (∀ k, k ≤ gt ∨ high < k → lB.getD k dummySR = l1.getD k dummySR) ∧
              List.Perm (sliceOf lB (gt + 1) (high + 1))
                (sliceOf l1 (gt + 1) (high + 1)) ∧
              sortedRange lB (gt + 1) (high + 1) := by
            by_cases hgh : gt < high
            · have hS := ih (high + 1 - (gt + 1)) (by omega) l1 (gt + 1) high rfl (by omega)
              exact ⟨hS.1, fun k hk => hS.2.1 k (by omega), hS.2.2.1, hS.2.2.2⟩
            · rw [hlBdef, quickSortGo_of_not_lt l1 (gt + 1) high (by omega)]
              exact ⟨rfl, fun k _ => rfl, List.Perm.refl _,
                fun j k hj hjk hk _ => absurd hjk (by omega)⟩
          obtain ⟨hLlen, hLout, hLperm, hLsort⟩ := hLf
          set rB := quickSortGo lB low (lt - 1) with hrBdef
          have hRf : rB.length = lB.length ∧
              (∀ k, k < low ∨ lt ≤ k → rB.getD k dummySR = lB.getD k dummySR) ∧
              List.Perm (sliceOf rB low lt) (sliceOf lB low lt) ∧
              sortedRange rB low lt := by
            by_cases hll : low < lt
            · have hS := ih (lt - 1 + 1 - low) (by omega) lB low (lt - 1) rfl (by omega)
              rw [show lt - 1 + 1 = lt from by omega] at hS
              exact ⟨hS.1, fun k hk => hS.2.1 k (by omega), hS.2.2.1, hS.2.2.2⟩
            · rw [hrBdef, quickSortGo_of_not_lt lB low (lt - 1) (by omega)]
              exact ⟨rfl, fun k _ => rfl, List.Perm.refl _,
                fun j k hj hjk hk _ => absurd hjk (by omega)⟩
          obtain ⟨hRlen, hRout, hRperm, hRsort⟩ := hRf
          have hEqL : sliceOf lB low lt = sliceOf l1 low lt :=
            sliceOf_congr l1 lB low lt hLlen
              (fun k hk1 hk2 => hLout k (by omega))
          have hEqR : sliceOf rB (gt + 1) (high + 1) = sliceOf lB (gt + 1) (high + 1) :=
            sliceOf_congr lB rB (gt + 1) (high + 1) hRlen
              (fun k hk1 hk2 => hRout k (by omega))
          exact qsg_combine (l.getD low dummySR).Score (l.getD low dummySR).ID l l1 rB
            low lt gt high hlowlt hltgt hgth hhigh hlen1 hout1 hperm1 hc1 hc2 hc3
            (hRlen.trans hLlen)
            (fun k hk => by
              rw [hRout k (by omega), hLout k (by omega)])
            (by rw [← hEqL]; exact hRperm)
            (by rw [hEqR]; exact hLperm)
            hRsort
            (sortedRange_congr lB rB (gt + 1) (high + 1) hRlen
              (fun k hk1 hk2 => hRout k (by omega)) hLsort)
    · rw [quickSortGo_of_not_lt l low high hlh]
      exact ⟨rfl, fun k _ => rfl, List.Perm.refl _,
        fun j k hj hjk hk _ => absurd hjk (by omega)⟩

theorem sliceOf_full (l : List SearchResult) (b : Nat) (hb : l.length ≤ b) :
    sliceOf l 0 b = l := by
  unfold sliceOf
  rw [List.drop_zero, Nat.sub_zero, List.take_of_length_le hb]

theorem pairwise_of_sortedRange (l : List SearchResult)
    (h : sortedRange l 0 l.length) : l.Pairwise candLE := by
  rw [List.pairwise_iff_getElem]
  intro i j hi hj hij
  have hjk := h i j (Nat.zero_le i) hij hj hj
  rwa [List.getD_eq_getElem _ dummySR hi, List.getD_eq_getElem _ dummySR hj] at hjk

/-- On a whole list, `quickSortGo` yields a sorted permutation. -/
theorem quickSortGo_full (l : List SearchResult) (h : 1 ≤ l.length) :
    List.Perm (quickSortGo l 0 (l.length - 1)) l ∧
    (quickSortGo l 0 (l.length - 1)).Pairwise candLE := by
  have hS := quickSortGo_spec (l.length - 1 + 1 - 0) l 0 (l.length - 1) rfl (by omega)
  obtain ⟨hlen, -, hperm, hsort⟩ := hS
  rw [show l.length - 1 + 1 = l.length from by omega] at hperm hsort
  constructor
  · rwa [sliceOf_full _ _ (le_of_eq hlen), sliceOf_full _ _ le_rfl] at hperm
  · apply pairwise_of_sortedRange
    rw [hlen]
    exact hsort

/-- The ranking key of a candidate: its score and identifier. -/
def keyOf (e : SearchResult) : ℚ × List Nat := (e.Score, e.ID)

def keyLE (p q : ℚ × List Nat) : Prop :=
  q.1 < p.1 ∨ (p.1 = q.1 ∧ strLt q.2 p.2 = false)

theorem keyLE_antisymm (p q : ℚ × List Nat) (h1 : keyLE p q) (h2 : keyLE q p) :
    p = q := by
  unfold keyLE at h1 h2
  rcases h1 with h1 | ⟨he1, hid1⟩ <;> rcases h2 with h2 | ⟨he2, hid2⟩
  · exact absurd (lt_trans h1 h2) (lt_irrefl _)
  · rw [he2] at h1
    exact absurd h1 (lt_irrefl _)
  · rw [he1] at h2
    exact absurd h2 (lt_irrefl _)
  · exact Prod.ext he1 (strLt_conn p.2 q.2 hid2 hid1)

theorem candLE_keyLE (a b : SearchResult) (h : candLE a b) :
    keyLE (keyOf a) (keyOf b) := by
  rw [candLE_iff] at h
  unfold keyLE keyOf
  exact h

/-- Two sorted permutations of the same candidates carry the same key
sequence (texts attached to equal keys may still be interchanged). -/
theorem sorted_keys_unique (l1 l2 : List SearchResult) (hp : List.Perm l1 l2)
    (h1 : l1.Pairwise candLE) (h2 : l2.Pairwise candLE) :
    l1.map keyOf = l2.map keyOf := by
  haveI : IsAntisymm (ℚ × List Nat) keyLE := ⟨keyLE_antisymm⟩
  exact List.eq_of_perm_of_sorted (hp.map keyOf)
    (List.Pairwise.map keyOf candLE_keyLE h1)
    (List.Pairwise.map keyOf candLE_keyLE h2)

theorem sortCandidates_eq (l : List SearchResult) :
    sortCandidates l =
      if l.length ≤ 1 then l
      else if l.length ≤ 10 then insertionSortRangeGo l 0 (l.length - 1)
      else if l.length ≤ 50 then shellSortGo l
      else quickSortGo l 0 (l.length - 1) := rfl

/-- `sortCandidates` is a sorted permutation of its input whatever the
size-selected algorithm. -/
theorem sortCandidates_spec (l : List SearchResult) :
    List.Perm (sortCandidates l) l ∧ (sortCandidates l).Pairwise candLE := by
  rw [sortCandidates_eq]
  by_cases h1 : l.length ≤ 1
  · rw [if_pos h1]
    refine ⟨List.Perm.refl l, ?_⟩
    rcases l with - | ⟨x, - | ⟨y, t⟩⟩
    · exact List.Pairwise.nil
    · exact List.Pairwise.cons (fun b hb => absurd hb (List.not_mem_nil b))
        List.Pairwise.nil
    · simp at h1
  · rw [if_neg h1]
    by_cases h10 : l.length ≤ 10
    · rw [if_pos h10, insertionSortRangeGo_full l (by omega)]
      exact ⟨sortFun_perm l, sortFun_sorted l⟩
    · rw [if_neg h10]
      by_cases h50 : l.length ≤ 50
      · rw [if_pos h50]
        exact ⟨shellSortGo_perm l, shellSortGo_sorted l⟩
      · rw [if_neg h50]
        exact quickSortGo_full l (by omega)

/-- C2: for every candidate array, `sortCandidates` returns a permutation of
its input ordered by score descending with ties broken by identifier
ascending (byte-lexicographic), and on non-empty input the three size-selected
algorithms — insertion sort, shell sort and three-way quicksort — produce the
same sequence of (score, identifier) keys, so the final ordering is identical
whichever algorithm the candidate count selects. -/
theorem C2_theorem (l : List SearchResult) :
    List.Perm (sortCandidates l) l ∧
    (sortCandidates l).Pairwise
      (fun u v => v.Score < u.Score ∨ (u.Score = v.Score ∧ strLt v.ID u.ID = false)) ∧
    (1 ≤ l.length →
      (shellSortGo l).map keyOf =
        (insertionSortRangeGo l 0 (l.length - 1)).map keyOf ∧
      (quickSortGo l 0 (l.length - 1)).map keyOf =
        (insertionSortRangeGo l 0 (l.length - 1)).map keyOf) := by
  have hmain := sortCandidates_spec l
  refine ⟨hmain.1, hmain.2.imp (fun h => (candLE_iff _ _).mp h), ?_⟩
  intro hlen
  rw [insertionSortRangeGo_full l hlen]
  constructor
  · exact sorted_keys_unique _ _ ((shellSortGo_perm l).trans (sortFun_perm l).symm)
      (shellSortGo_sorted l) (sortFun_sorted l)
  · have hq := quickSortGo_full l hlen
    exact sorted_keys_unique _ _ (hq.1.trans (sortFun_perm l).symm) hq.2
      (sortFun_sorted l)

theorem C2_witness :
    1 ≤ [dummySR].length ∧
    (shellSortGo [dummySR]).map keyOf =
      (insertionSortRangeGo [dummySR] 0 ([dummySR].length - 1)).map keyOf :=
  ⟨by decide, ((C2_theorem [dummySR]).2.2 (by decide)).1⟩

/-! Claim C10: every returned result carries a strictly positive score. -/

theorem searchDirectAux_pos (q : QueryCtx) (hlw : Bool) :
    ∀ (data : List (List Nat × List Nat)) (cnt : Nat) (e : SearchResult),
      e ∈ searchDirectAux q hlw data cnt → 0 < e.Score := by
  intro data
  induction data with
  | nil =>
    intro cnt e he
    rw [searchDirectAux] at he
    cases he
  | cons d rest ih =>
    obtain ⟨id, text⟩ := d
    intro cnt e he
    rw [searchDirectAux] at he
    dsimp only [] at he
    split at he
    · cases he
    · split at he
      · exact ih cnt e he
      · split at he
        · rename_i hpos
          rcases List.mem_cons.mp he with he | he
          · rw [he]
            exact hpos
          · exact ih (cnt + 1) e he
        · exact ih cnt e he

theorem scoreCandidatesAux_pos (cached : List (List Nat × List Nat)) (q : QueryCtx) :
    ∀ (ids : List (List Nat)) (cnt : Nat) (e : SearchResult),
      e ∈ scoreCandidatesAux cached q ids cnt → 0 < e.Score := by
  intro ids
  induction ids with
  | nil =>
    intro cnt e he
    rw [scoreCandidatesAux] at he
    cases he
  | cons docID rest ih =>
    intro cnt e he
    rw [scoreCandidatesAux] at he
    dsimp only [] at he
    split at he
    · split at he
      · split at he
        · rename_i hpos
          rcases List.mem_cons.mp he with he | he
          · rw [he]
            exact hpos
          · exact ih (cnt + 1) e he
        · exact ih cnt e he
      · exact ih cnt e he
    · cases he

theorem searchDirect_pos (data : List (List Nat × List Nat)) (q : QueryCtx)
    (e : SearchResult) (he : e ∈ searchDirect data q) : 0 < e.Score :=
  searchDirectAux_pos q (q.qWords.any (fun s => decide (s.2 - s.1 > 10))) data 0 e he

theorem searchWithCache_pos (data : List (List Nat × List Nat)) (q : QueryCtx)
    (e : SearchResult) (he : e ∈ searchWithCache data q) : 0 < e.Score :=
  scoreCandidatesAux_pos (buildIndex data).cachedData q
    (findCandidates (buildIndex data) q) 0 e he

theorem convertToResultsOneAlloc_mem (cands : List SearchResult) (maxResults : Int)
    (e : SearchResult) (he : e ∈ convertToResultsOneAlloc cands maxResults) :
    e ∈ cands := by
  unfold convertToResultsOneAlloc at he
  dsimp only [] at he
  split at he
  · cases he
  · exact List.take_subset _ _ he

theorem convertToResultsZeroAlloc_mem (cands : List SearchResult) (maxResults : Int)
    (resultBuffer : List SearchResult) (e : SearchResult)
    (he : e ∈ (convertToResultsZeroAlloc cands maxResults resultBuffer).2) :
    e ∈ cands := by
  unfold convertToResultsZeroAlloc at he
  dsimp only [] at he
  set L : Int := if min (cands.length : Int) maxResults > (resultBuffer.length : Int)
    then (resultBuffer.length : Int) else min (cands.length : Int) maxResults with hL
  have hle : L ≤ (cands.length : Int) := by
    rw [hL]
    split
    · rename_i hgt
      have h1 := min_le_left (cands.length : Int) maxResults
      omega
    · exact min_le_left _ _
  have htn : L.toNat ≤ cands.length := Int.toNat_le.mpr hle
  by_cases h0 : L = 0
  · rw [if_pos h0] at he
    cases he
  · rw [if_neg h0] at he
    dsimp only [] at he
    rw [List.take_append_of_le_length (by
      rw [List.length_take]
      omega)] at he
    exact List.take_subset _ _ (List.take_subset _ _ he)

theorem performSearchOneAlloc_pos (data : List (List Nat × List Nat)) (query : List Nat)
    (maxResults : Int) (useCache : Bool) (e : SearchResult)
    (he : e ∈ performSearchOneAlloc data query maxResults useCache) : 0 < e.Score := by
  unfold performSearchOneAlloc at he
  have h1 := convertToResultsOneAlloc_mem _ _ _ he
  have h2 := ((sortCandidates_spec _).1.mem_iff).mp h1
  by_cases hc : useCache = true
  · rw [if_pos hc] at h2
    exact searchWithCache_pos data (mkQueryCtx query) e h2
  · rw [if_neg hc] at h2
    exact searchDirect_pos data (mkQueryCtx query) e h2

theorem performSearchZeroAlloc_pos (data : List (List Nat × List Nat)) (query : List Nat)
    (maxResults : Int) (useCache : Bool) (resultBuffer : List SearchResult)
    (e : SearchResult)
    (he : e ∈ (performSearchZeroAlloc data query maxResults useCache resultBuffer).2) :
    0 < e.Score := by
  unfold performSearchZeroAlloc at he
  have h1 := convertToResultsZeroAlloc_mem _ _ _ _ he
  have h2 := ((sortCandidates_spec _).1.mem_iff).mp h1
  by_cases hc : useCache = true
  · rw [if_pos hc] at h2
    exact searchWithCache_pos data (mkQueryCtx query) e h2
  · rw [if_neg hc] at h2
    exact searchDirect_pos data (mkQueryCtx query) e h2

/-- C10: every `SearchResult` returned by any of the four search entry
points has a strictly positive score — zero-scoring candidates are filtered
out before ranking and result materialization on both the direct and the
cached path. -/
theorem C10_theorem (data : List (List Nat × List Nat)) (query : List Nat)
    (maxResults : Int) (resultBuffer : List SearchResult) :
    (∀ e, e ∈ Search data query maxResults → 0 < e.Score) ∧
    (∀ e, e ∈ QuickSearch data query maxResults → 0 < e.Score) ∧
    (∀ e, e ∈ (SearchInto data query resultBuffer).2 → 0 < e.Score) ∧
    (∀ e, e ∈ (QuickSearchInto data query resultBuffer).2 → 0 < e.Score) := by
  refine ⟨?_, ?_, ?_, ?_⟩
  · intro e he
    unfold Search at he
    split at he
    · cases he
    · split at he
      · exact performSearchOneAlloc_pos data query maxResults false e he
      · exact performSearchOneAlloc_pos data query maxResults true e he
  · intro e he
    unfold QuickSearch at he
    split at he
    · cases he
    · exact performSearchOneAlloc_pos data query maxResults false e he
  · intro e he
    unfold SearchInto at he
    split at he
    · cases he
    · split at he
      · exact performSearchZeroAlloc_pos data query _ false resultBuffer e he
      · exact performSearchZeroAlloc_pos data query _ true resultBuffer e he
  · intro e he
    unfold QuickSearchInto at he
    split at he
    · cases he
    · exact performSearchZeroAlloc_pos data query _ false resultBuffer e he

theorem C10_witness :
    0 < ((Search [([100], [104, 105])] [104, 105] 1).getD 0 dummySR).Score :=
  (C10_theorem [([100], [104, 105])] [104, 105] 1 []).1
    ((Search [([100], [104, 105])] [104, 105] 1).getD 0 dummySR)
    (getD_mem' _ 0 (of_decide_eq_true (by with_unfolding_all rfl)))

/-! Claim C6: the zero-allocation path respects the caller's buffer. -/

/-- `convertToResultsZeroAlloc` clamps the view to both the buffer capacity
and the caller's cap, keeps the buffer length unchanged, and leaves every
slot at an index not covered by the view exactly as it was. -/
theorem convertToResultsZeroAlloc_spec (cands : List SearchResult) (maxResults : Int)
    (buf : List SearchResult) :
    (convertToResultsZeroAlloc cands maxResults buf).2.length ≤
      min buf.length maxResults.toNat ∧
    (convertToResultsZeroAlloc cands maxResults buf).1.length = buf.length ∧
    (∀ k, (convertToResultsZeroAlloc cands maxResults buf).2.length ≤ k →
      (convertToResultsZeroAlloc cands maxResults buf).1.getD k dummySR =
        buf.getD k dummySR) := by
  unfold convertToResultsZeroAlloc
  dsimp only []
  set L : Int := if min (cands.length : Int) maxResults > (buf.length : Int)
    then (buf.length : Int) else min (cands.length : Int) maxResults with hL
  have hle : L ≤ (cands.length : Int) := by
    rw [hL]
    split
    · rename_i hgt
      have h1 := min_le_left (cands.length : Int) maxResults
      omega
    · exact min_le_left _ _
  have hleK : L ≤ (buf.length : Int) := by
    rw [hL]
    split
    · exact le_rfl
    · rename_i hgt
      omega
  have hleM : L ≤ maxResults := by
    rw [hL]
    split
    · rename_i hgt
      have h1 := min_le_right (cands.length : Int) maxResults
      omega
    · exact min_le_right _ _
  have htn : L.toNat ≤ cands.length := Int.toNat_le.mpr hle
  have htnK : L.toNat ≤ buf.length := Int.toNat_le.mpr hleK
  have htnM : L.toNat ≤ maxResults.toNat := Int.toNat_le_toNat hleM
  by_cases h0 : L = 0
  · rw [if_pos h0]
    exact ⟨by simp, rfl, fun k _ => rfl⟩
  · rw [if_neg h0]
    dsimp only []
    have hA : (cands.take L.toNat).length = L.toNat := by
      rw [List.length_take]
      omega
    have hNB : (cands.take L.toNat ++ buf.drop L.toNat).length = buf.length := by
      rw [List.length_append, hA, List.length_drop]
      omega
    have hV : ((cands.take L.toNat ++ buf.drop L.toNat).take L.toNat).length = L.toNat := by
      rw [List.length_take, hNB]
      omega
    refine ⟨?_, hNB, ?_⟩
    · rw [hV]
      omega
    · intro k hk
      rw [hV] at hk
      have h1 : (cands.take L.toNat ++ buf.drop L.toNat).getD k dummySR =
          ((cands.take L.toNat ++ buf.drop L.toNat).drop L.toNat).getD (k - L.toNat)
            dummySR := by
        rw [getD_drop' dummySR _ L.toNat (k - L.toNat)]
        congr 1
        omega
      rw [h1, drop_append_exact _ _ _ hA, getD_drop' dummySR buf L.toNat (k - L.toNat),
        show L.toNat + (k - L.toNat) = k from by omega]

/-- C6: the zero-allocation search returns a view of at most
`min K maxResults` entries for a buffer of capacity `K`, and writes only
inside the view: the buffer keeps its length and every slot at an index not
covered by the returned view keeps its previous value (so no index `≥ K` is
ever touched). -/
theorem C6_theorem (data : List (List Nat × List Nat)) (query : List Nat)
    (maxResults : Int) (useCache : Bool) (resultBuffer : List SearchResult) :
    (performSearchZeroAlloc data query maxResults useCache resultBuffer).2.length ≤
      min resultBuffer.length maxResults.toNat ∧
    (performSearchZeroAlloc data query maxResults useCache resultBuffer).1.length =
      resultBuffer.length ∧
    (∀ k, (performSearchZeroAlloc data query maxResults useCache resultBuffer).2.length ≤ k →
      (performSearchZeroAlloc data query maxResults useCache resultBuffer).1.getD k dummySR =
        resultBuffer.getD k dummySR) ∧
    (SearchInto data query resultBuffer).2.length ≤ resultBuffer.length ∧
    (SearchInto data query resultBuffer).1.length = resultBuffer.length := by
  have hP : ∀ uc : Bool,
      (performSearchZeroAlloc data query maxResults uc resultBuffer).2.length ≤
        min resultBuffer.length maxResults.toNat ∧
      (performSearchZeroAlloc data query maxResults uc resultBuffer).1.length =
        resultBuffer.length ∧
      (∀ k, (performSearchZeroAlloc data query maxResults uc resultBuffer).2.length ≤ k →
        (performSearchZeroAlloc data query maxResults uc resultBuffer).1.getD k dummySR =
          resultBuffer.getD k dummySR) := by
    intro uc
    unfold performSearchZeroAlloc
    exact convertToResultsZeroAlloc_spec _ maxResults resultBuffer
  refine ⟨(hP useCache).1, (hP useCache).2.1, (hP useCache).2.2, ?_, ?_⟩
  · unfold SearchInto
    split
    · simp
    · split
      · have h1 := (convertToResultsZeroAlloc_spec
          (sortCandidates (searchDirect data (mkQueryCtx query)))
          (resultBuffer.length : Int) resultBuffer).1
        refine le_trans h1 ?_
        rw [Int.toNat_natCast]
        exact min_le_left _ _
      · have h1 := (convertToResultsZeroAlloc_spec
          (sortCandidates (searchWithCache data (mkQueryCtx query)))
          (resultBuffer.length : Int) resultBuffer).1
        refine le_trans h1 ?_
        rw [Int.toNat_natCast]
        exact min_le_left _ _
  · unfold SearchInto
    split
    · rfl
    · split
      · exact (convertToResultsZeroAlloc_spec
          (sortCandidates (searchDirect data (mkQueryCtx query)))
          (resultBuffer.length : Int) resultBuffer).2.1
      · exact (convertToResultsZeroAlloc_spec
          (sortCandidates (searchWithCache data (mkQueryCtx query)))
          (resultBuffer.length : Int) resultBuffer).2.1

theorem C6_witness :
    (performSearchZeroAlloc [([100], [104, 105])] [104, 105] 1 false
        [dummySR, dummySR]).2.length ≤ min 2 1 ∧
    (performSearchZeroAlloc [([100], [104, 105])] [104, 105] 1 false
        [dummySR, dummySR]).1.getD 1 dummySR = dummySR :=
  ⟨(C6_theorem [([100], [104, 105])] [104, 105] 1 false [dummySR, dummySR]).1,
   (C6_theorem [([100], [104, 105])] [104, 105] 1 false [dummySR, dummySR]).2.2.1 1
     (of_decide_eq_true (by with_unfolding_all rfl))⟩

/-! Claim C5: scoring when every query word has an exact match. -/

theorem getD_mem_nat (l : List Nat) (k : Nat) (hk : k < l.length) :
    l.getD k 0 ∈ l := by
  rw [List.getD_eq_getElem _ _ hk]
  exact List.getElem_mem hk

/-- Spans produced by the split loop are non-empty and end within the
text. -/
theorem splitWordsAux_valid :
    ∀ (text : List Nat) (i start count maxW textLen : Nat),
      textLen = i + text.length →
      ∀ s ∈ splitWordsAux text i start count maxW textLen,
        s.1 < s.2 ∧ s.2 ≤ textLen := by
  intro text
  induction text with
  | nil =>
    intro i start count maxW textLen htl s hs
    rw [splitWordsAux] at hs
    split at hs
    · rename_i hc
      rw [List.mem_singleton] at hs
      subst hs
      exact ⟨hc.1, le_rfl⟩
    · cases hs
  | cons b rest ih =>
    intro i start count maxW textLen htl s hs
    have htl' : textLen = (i + 1) + rest.length := by
      simp only [List.length_cons] at htl
      omega
    rw [splitWordsAux] at hs
    split at hs
    · split at hs
      · split at hs
        · rename_i hib
          rcases List.mem_cons.mp hs with hs | hs
          · subst hs
            exact ⟨hib, by omega⟩
          · exact ih (i + 1) (i + 1) (count + 1) maxW textLen htl' s hs
        · exact ih (i + 1) (i + 1) count maxW textLen htl' s hs
      · exact ih (i + 1) start count maxW textLen htl' s hs
    · cases hs

theorem splitWords_valid (text : List Nat) (maxW : Nat) :
    ∀ s ∈ splitWords text maxW, s.1 < s.2 ∧ s.2 ≤ text.length :=
  splitWordsAux_valid text 0 0 0 maxW text.length (by simp)

/-- If some document word is an exact length-and-content match for the query
word, the per-word loop returns score 2 with the exact flag set, whatever
the running best. -/
theorem bestWordMatch_exact (qNorm docNorm : List Nat) (qs qe : Nat) :
    ∀ (ws : List (Nat × Nat)) (best : ℚ),
      (∃ d ∈ ws, d.2 - d.1 = qe - qs ∧
        memEqual ((qNorm.drop qs).take (qe - qs))
          ((docNorm.drop d.1).take (d.2 - d.1)) (qe - qs) = true) →
      bestWordMatch qNorm docNorm qs qe ws best = (2, true) := by
  intro ws
  induction ws with
  | nil =>
    intro best h
    obtain ⟨d, hd, -⟩ := h
    cases hd
  | cons w rest ih =>
    obtain ⟨ds, de⟩ := w
    intro best h
    obtain ⟨d, hd, hlen, hmem⟩ := h
    rw [bestWordMatch]
    dsimp only []
    rcases List.mem_cons.mp hd with hdh | hdt
    · subst hdh
      rw [if_neg (fun hc => hc.2 hlen)]
      rw [if_pos hlen.symm, if_pos hmem]
    · by_cases h1 : docNorm.getD ds 0 ≠ qNorm.getD qs 0 ∧ de - ds ≠ qe - qs
      · rw [if_pos h1]
        exact ih best ⟨d, hdt, hlen, hmem⟩
      · rw [if_neg h1]
        by_cases h2 : qe - qs = de - ds
        · rw [if_pos h2]
          by_cases h3 : memEqual ((qNorm.drop qs).take (qe - qs))
              ((docNorm.drop ds).take (de - ds)) (qe - qs) = true
          · rw [if_pos h3]
          · rw [if_neg h3]
            exact ih best ⟨d, hdt, hlen, hmem⟩
        · rw [if_neg h2]
          exact ih _ ⟨d, hdt, hlen, hmem⟩

/-- If every query word has an exact match among the document words, the
word-matching loop totals score `2` per word and counts every word as an
exact match. -/
theorem wordMatchLoop_exact (qNorm docNorm : List Nat) (docWords : List (Nat × Nat)) :
    ∀ qws : List (Nat × Nat),
      (∀ s ∈ qws, ∃ d ∈ docWords, d.2 - d.1 = s.2 - s.1 ∧
        memEqual ((qNorm.drop s.1).take (s.2 - s.1))
          ((docNorm.drop d.1).take (d.2 - d.1)) (s.2 - s.1) = true) →
      wordMatchLoop qNorm docNorm docWords qws =
        (2 * (qws.length : ℚ), qws.length) := by
  intro qws
  induction qws with
  | nil =>
    intro _
    rw [wordMatchLoop]
    norm_num
  | cons s rest ih =>
    obtain ⟨qs, qe⟩ := s
    intro H
    rw [wordMatchLoop]
    rw [bestWordMatch_exact qNorm docNorm qs qe docWords 0
        (H (qs, qe) (List.mem_cons_self _ _)),
      ih (fun s hs => H s (List.mem_cons_of_mem _ hs))]
    refine Prod.ext ?_ ?_
    · show (2 : ℚ) + 2 * (rest.length : ℚ) = 2 * (((qs, qe) :: rest).length : ℚ)
      rw [List.length_cons]
      push_cast
      ring
    · show 1 + rest.length = ((qs, qe) :: rest).length
      rw [List.length_cons]
      omega

/-- C5: when every query word has an exact length-and-content match among
the document's words, `scoreDocument` returns `2·W + (W − 1)·0.5` for `W`
query words — the per-word exact scores plus the multi-exact bonus, with no
substring or cross-word bonus added. -/
theorem C5_theorem (query text : List Nat)
    (hW : 1 ≤ (mkQueryCtx query).qWords.length)
    (H : ∀ s ∈ (mkQueryCtx query).qWords,
      ∃ d ∈ splitWords (normalizeText text 8192) 256,
        d.2 - d.1 = s.2 - s.1 ∧
        memEqual (((mkQueryCtx query).qNorm.drop s.1).take (s.2 - s.1))
          (((normalizeText text 8192).drop d.1).take (d.2 - d.1)) (s.2 - s.1) = true) :
    scoreDocument text (mkQueryCtx query) =
      2 * (((mkQueryCtx query).qWords.length : Nat) : ℚ) +
        (((mkQueryCtx query).qWords.length - 1 : Nat) : ℚ) * (1 / 2) := by
  have hne : (mkQueryCtx query).qWords ≠ [] := by
    intro h0
    rw [h0] at hW
    simp at hW
  obtain ⟨s0, hs0⟩ := List.exists_mem_of_ne_nil _ hne
  obtain ⟨d0, hd0, hlen0, hmem0⟩ := H s0 hs0
  have hqv : s0.1 < s0.2 ∧ s0.2 ≤ (mkQueryCtx query).qNorm.length :=
    splitWords_valid (normalizeText query 2048) 128 s0 hs0
  have hdv : d0.1 < d0.2 ∧ d0.2 ≤ (normalizeText text 8192).length :=
    splitWords_valid (normalizeText text 8192) 256 d0 hd0
  have hguard : ¬ (text.length = 0 ∨ (mkQueryCtx query).qWords.length = 0) := by
    rintro (h | h)
    · rw [List.length_eq_zero.mp h] at hd0
      have hnil : splitWords (normalizeText [] 8192) 256 = [] := rfl
      rw [hnil] at hd0
      cases hd0
    · omega
  have heqb : (mkQueryCtx query).qNorm.getD s0.1 0 =
      (normalizeText text 8192).getD d0.1 0 := by
    have heq := eq_of_beq hmem0
    have h1 := congrArg (fun l => l.getD 0 0) heq
    dsimp only [] at h1
    rw [getD_take' 0 _ (s0.2 - s0.1) 0 (by omega),
      getD_take' 0 _ (s0.2 - s0.1) 0 (by omega),
      getD_take' 0 _ (s0.2 - s0.1) 0 (by omega),
      getD_take' 0 _ (d0.2 - d0.1) 0 (by omega),
      getD_drop' 0 _ s0.1 0, getD_drop' 0 _ d0.1 0] at h1
    simpa using h1
  have hscreen : containsAnyQueryBytes (normalizeText text 8192)
      (mkQueryCtx query).qNorm = true := by
    unfold containsAnyQueryBytes
    have hq1 : 1 ≤ (mkQueryCtx query).qNorm.length := by omega
    rw [if_neg (by
      intro hemp
      rw [List.isEmpty_iff] at hemp
      rw [hemp] at hq1
      simp at hq1)]
    rw [List.any_eq_true]
    refine ⟨(normalizeText text 8192).getD d0.1 0, getD_mem_nat _ _ (by omega), ?_⟩
    rw [← heqb]
    exact List.elem_iff.mpr (getD_mem_nat _ _ (by omega))
  unfold scoreDocument
  rw [if_neg hguard]
  dsimp only []
  rw [if_neg (not_not_intro hscreen)]
  rw [wordMatchLoop_exact (mkQueryCtx query).qNorm (normalizeText text 8192)
    (splitWords (normalizeText text 8192) 256) (mkQueryCtx query).qWords H]
  rw [if_pos rfl]

theorem C5_witness :
    1 ≤ (mkQueryCtx [104, 105]).qWords.length ∧
    scoreDocument [104, 105] (mkQueryCtx [104, 105]) =
      2 * (((mkQueryCtx [104, 105]).qWords.length : Nat) : ℚ) +
        (((mkQueryCtx [104, 105]).qWords.length - 1 : Nat) : ℚ) * (1 / 2) :=
  ⟨by decide, C5_theorem [104, 105] [104, 105] (by decide) (by decide)⟩

/-! Claim C1: direct versus cached search path. -/

theorem mem_of_lookup_eq_some :
    ∀ (l : List (List Nat × List Nat)) (a b : List Nat),
      List.lookup a l = some b → (a, b) ∈ l := by
  intro l
  induction l with
  | nil =>
    intro a b h
    cases h
  | cons p rest ih =>
    obtain ⟨k, v⟩ := p
    intro a b h
    rw [List.lookup] at h
    by_cases hk : (a == k) = true
    · rw [hk] at h
      have hv : v = b := by simpa using h
      have hak : a = k := eq_of_beq hk
      rw [hak, ← hv]
      exact List.mem_cons_self _ _
    · rw [Bool.not_eq_true] at hk
      rw [hk] at h
      exact List.mem_cons_of_mem _ (ih a b (by simpa using h))

/-- With pairwise distinct identifiers, a key determines its text. -/
theorem nodup_keys_val_eq :
    ∀ (data : List (List Nat × List Nat)) (k v1 v2 : List Nat),
      (data.map Prod.fst).Nodup → (k, v1) ∈ data → (k, v2) ∈ data → v1 = v2 := by
  intro data
  induction data with
  | nil =>
    intro k v1 v2 _ h1 _
    cases h1
  | cons p rest ih =>
    intro k v1 v2 hnd h1 h2
    rw [List.map_cons, List.nodup_cons] at hnd
    rcases List.mem_cons.mp h1 with h1 | h1 <;> rcases List.mem_cons.mp h2 with h2 | h2
    · have h12 := h1.trans h2.symm
      exact congrArg Prod.snd h12
    · exfalso
      have hk : k ∈ rest.map Prod.fst := List.mem_map.mpr ⟨(k, v2), h2, rfl⟩
      have hp1 : p.1 = k := by rw [← h1]
      exact hnd.1 (hp1 ▸ hk)
    · exfalso
      have hk : k ∈ rest.map Prod.fst := List.mem_map.mpr ⟨(k, v1), h1, rfl⟩
      have hp1 : p.1 = k := by rw [← h2]
      exact hnd.1 (hp1 ▸ hk)
    · exact ih k v1 v2 hnd.2 h1 h2

/-- Every direct-path result pairs a corpus entry with its recomputed
score. -/
theorem searchDirectAux_mem (q : QueryCtx) (hlw : Bool) :
    ∀ (data : List (List Nat × List Nat)) (cnt : Nat) (e : SearchResult),
      e ∈ searchDirectAux q hlw data cnt →
      (e.ID, e.Text) ∈ data ∧ e.Score = scoreDocument e.Text q := by
  intro data
  induction data with
  | nil =>
    intro cnt e he
    rw [searchDirectAux] at he
    cases he
  | cons d rest ih =>
    obtain ⟨id, text⟩ := d
    intro cnt e he
    rw [searchDirectAux] at he
    dsimp only [] at he
    split at he
    · cases he
    · split at he
      · obtain ⟨hm, hs⟩ := ih cnt e he
        exact ⟨List.mem_cons_of_mem _ hm, hs⟩
      · split at he
        · rcases List.mem_cons.mp he with he | he
          · rw [he]
            exact ⟨List.mem_cons_self _ _, rfl⟩
          · obtain ⟨hm, hs⟩ := ih (cnt + 1) e he
            exact ⟨List.mem_cons_of_mem _ hm, hs⟩
        · obtain ⟨hm, hs⟩ := ih cnt e he
          exact ⟨List.mem_cons_of_mem _ hm, hs⟩

/-- Every cached-path result pairs a corpus entry (looked up in the cache)
with its recomputed score. -/
theorem scoreCandidatesAux_mem (cached : List (List Nat × List Nat)) (q : QueryCtx) :
    ∀ (ids : List (List Nat)) (cnt : Nat) (e : SearchResult),
      e ∈ scoreCandidatesAux cached q ids cnt →
      (e.ID, e.Text) ∈ cached ∧ e.Score = scoreDocument e.Text q := by
  intro ids
  induction ids with
  | nil =>
    intro cnt e he
    rw [scoreCandidatesAux] at he
    cases he
  | cons docID rest ih =>
    intro cnt e he
    rw [scoreCandidatesAux] at he
    dsimp only [] at he
    split at he
    · split at he
      · rename_i text hlook
        split at he
        · rcases List.mem_cons.mp he with he | he
          · rw [he]
            exact ⟨mem_of_lookup_eq_some cached docID text hlook, rfl⟩
          · exact ih (cnt + 1) e he
        · exact ih cnt e he
      · exact ih cnt e he
    · cases he

/-- C1 counterexample: the two paths do not return the same identifier
sets.  A query whose single word is longer than 10 bytes makes the direct
path skip any document shorter than half the query, while the cached path
still reaches it through the trigram index and scores it positively: for
corpus `{"doc": "abc"}` and query `"abcdefghijkl"`, `searchDirect` returns
no identifiers but `searchWithCache` returns `["doc"]`. -/
theorem C1_counterexample :
    (searchDirect [([100, 111, 99], [97, 98, 99])]
        (mkQueryCtx [97, 98, 99, 100, 101, 102, 103, 104, 105, 106, 107, 108])).map
        (fun e => e.ID) = [] ∧
    (searchWithCache [([100, 111, 99], [97, 98, 99])]
        (mkQueryCtx [97, 98, 99, 100, 101, 102, 103, 104, 105, 106, 107, 108])).map
        (fun e => e.ID) = [[100, 111, 99]] :=
  ⟨of_decide_eq_true (by with_unfolding_all rfl),
   of_decide_eq_true (by with_unfolding_all rfl)⟩

/-- C1 (amended): when the corpus identifiers are pairwise distinct, any
document identifier returned by both the direct path and the cached path
carries the same text and the same score on both paths — both re-score the
corpus text with `scoreDocument`, so they can only disagree on which
identifiers they return, not on the scores of common ones. -/
theorem C1_theorem (data : List (List Nat × List Nat)) (q : QueryCtx)
    (hnd : (data.map Prod.fst).Nodup) :
    ∀ e1, e1 ∈ searchDirect data q → ∀ e2, e2 ∈ searchWithCache data q →
      e1.ID = e2.ID → e1.Text = e2.Text ∧ e1.Score = e2.Score := by
  intro e1 h1 e2 h2 hid
  obtain ⟨hm1, hs1⟩ := searchDirectAux_mem q
    (q.qWords.any (fun s => decide (s.2 - s.1 > 10))) data 0 e1 h1
  obtain ⟨hm2, hs2⟩ := scoreCandidatesAux_mem data q
    (findCandidates (buildIndex data) q) 0 e2 h2
  have htext : e1.Text = e2.Text := by
    apply nodup_keys_val_eq data e1.ID e1.Text e2.Text hnd hm1
    rw [hid]
    exact hm2
  refine ⟨htext, ?_⟩
  rw [hs1, hs2, htext]

theorem C1_witness :
    (([([100], [104, 105])] : List (List Nat × List Nat)).map Prod.fst).Nodup ∧
    ((⟨[100], [104, 105], 2⟩ : SearchResult).Text =
        (⟨[100], [104, 105], 2⟩ : SearchResult).Text ∧
      (⟨[100], [104, 105], 2⟩ : SearchResult).Score =
        (⟨[100], [104, 105], 2⟩ : SearchResult).Score) :=
  ⟨by decide,
   C1_theorem [([100], [104, 105])] (mkQueryCtx [104, 105]) (by decide)
     ⟨[100], [104, 105], 2⟩ (of_decide_eq_true (by with_unfolding_all rfl))
     ⟨[100], [104, 105], 2⟩ (of_decide_eq_true (by with_unfolding_all rfl)) rfl⟩

end GoMapSearch
